import Mathlib

/-
Verification of the sqld dynamic-query-construction library.

Go strings are modelled as lists of characters (`GoStr`); Go `interface{}`
values that flow through the builders are modelled by the inductive `GoVal`
(`GoVal.vnull` is the nil interface).  Each Go function of the library is
translated into a Lean function of the same name operating on this
representation; stateful methods become state-passing functions.
-/

namespace Sqld

/-- Go strings, modelled as lists of characters. -/
abbrev GoStr := List Char

/-- Coerce a Lean string literal to the `GoStr` representation. -/
def gs (s : String) : GoStr := s.data

/-- Model of Go `strings.Contains`. -/
def goContains (s sub : GoStr) : Bool :=
  match s with
  | [] => sub.isEmpty
  | _ :: rest => sub.isPrefixOf s || goContains rest sub

/-- Model of Go `strings.Replace(s, old, new, 1)`: replace the first
(leftmost) occurrence of `old` in `s` by `new?`; if `old` does not occur,
`s` is returned unchanged.  (An empty `old` inserts at the front, as in Go.) -/
def goReplace1 (s old new? : GoStr) : GoStr :=
  match s with
  | [] => if old.isEmpty then new? else []
  | c :: rest =>
    if old.isPrefixOf (c :: rest) then new? ++ (c :: rest).drop old.length
    else c :: goReplace1 rest old new?

/-- Model of Go `strings.HasSuffix`. -/
def goEndsWith (s suf : GoStr) : Bool := suf.isSuffixOf s

/-- Model of Go `strings.TrimSuffix`. -/
def goTrimEnd (s suf : GoStr) : GoStr :=
  if goEndsWith s suf then s.take (s.length - suf.length) else s

/-- Model of Go `strings.Split(s, sep)` for a one-character separator
(the only form the library uses). -/
def goSplitChar (sep : Char) : GoStr → List GoStr
  | [] => [[]]
  | c :: rest =>
    if c = sep then [] :: goSplitChar sep rest
    else
      match goSplitChar sep rest with
      | g :: gsRest => (c :: g) :: gsRest
      | [] => [[c]]

/-- Model of Go `strings.SplitN(s, sep, 2)` for a one-character separator:
split at the first occurrence only. -/
def goSplitN2 (sep : Char) : GoStr → List GoStr
  | [] => [[]]
  | c :: rest =>
    if c = sep then [[], rest]
    else
      match goSplitN2 sep rest with
      | b :: tail => (c :: b) :: tail
      | [] => [[c]]

/-- ASCII lower-casing of one character.  The library only lower-cases
operator tokens, which are ASCII, so the ASCII fragment of Go
`strings.ToLower` suffices. -/
def asciiLower (c : Char) : Char :=
  if 'A' ≤ c ∧ c ≤ 'Z' then Char.ofNat (c.toNat + 32) else c

/-- Model of Go `strings.ToLower` on the ASCII fragment. -/
def goToLower (s : GoStr) : GoStr := s.map asciiLower

/-- The white-space characters recognised by Go `unicode.IsSpace`
(ASCII fragment plus NEL and NBSP). -/
def goIsSpace (c : Char) : Bool :=
  c = ' ' ∨ c = '\t' ∨ c = '\n' ∨ c.toNat = 11 ∨ c.toNat = 12 ∨
  c = '\r' ∨ c.toNat = 133 ∨ c.toNat = 160

/-- Model of Go `strings.TrimSpace`. -/
def goTrimSpace (s : GoStr) : GoStr :=
  ((s.dropWhile goIsSpace).reverse.dropWhile goIsSpace).reverse

/-- Decimal digit character for a value below ten. -/
def digitChar (n : Nat) : Char := Char.ofNat (48 + n)

/-- Fuel-driven core of decimal printing (most significant digit first);
`fuel ≥ n` makes the result independent of `fuel`. -/
def natToCharsAux : Nat → Nat → GoStr
  | 0, n => [digitChar n]
  | fuel + 1, n =>
    if n < 10 then [digitChar n]
    else natToCharsAux fuel (n / 10) ++ [digitChar (n % 10)]

/-- Decimal representation of a natural number, as produced by Go
`strconv.Itoa` on non-negative input. -/
def natToChars (n : Nat) : GoStr := natToCharsAux n n

/-- Model of Go `strconv.Itoa`. -/
def itoa : Int → GoStr
  | .ofNat n => natToChars n
  | .negSucc m => '-' :: natToChars (m + 1)

/-- Numeric value of a decimal digit character. -/
def digitVal (c : Char) : Nat := c.toNat - 48

/-- Value of a list of decimal digit characters (most significant first),
accumulated left to right exactly as a scanner reads them. -/
def digitsVal (ds : GoStr) : Nat := ds.foldl (fun a c => 10 * a + digitVal c) 0

/-- Model of Go `strconv.Atoi`: an optional sign followed by a non-empty
run of digits, nothing else.  (Overflow of the 64-bit range is not
modelled; no claim exercises it.) -/
def goAtoi (s : GoStr) : Option Int :=
  match s with
  | [] => none
  | '+' :: ds => if ds ≠ [] ∧ ds.all Char.isDigit then some (digitsVal ds) else none
  | '-' :: ds => if ds ≠ [] ∧ ds.all Char.isDigit then some (-(digitsVal ds : Int)) else none
  | ds => if ds.all Char.isDigit then some (digitsVal ds) else none

/-! ## Placeholder scanning

`phNums` lists, in order of appearance, the numbers `N` of the `$N`
placeholders occurring in a SQL string — the observations the placeholder
claims are about.  It is a three-state scanner: outside a placeholder,
just after a `$`, or inside the digit run of a placeholder. -/

/-- Scanner state for `phNums`. -/
inductive PhSt
  | norm
  | dollar
  | num (acc : Nat)
deriving DecidableEq

/-- Placeholder emissions still owed by a scanner state at end of input. -/
def phFlush : PhSt → List Nat
  | .norm => []
  | .dollar => []
  | .num acc => [acc]

/-- One scanner transition: next state and the emission it triggers. -/
def phStep (st : PhSt) (c : Char) : PhSt × List Nat :=
  match st with
  | .norm => if c = '$' then (.dollar, []) else (.norm, [])
  | .dollar =>
    if c.isDigit then (.num (digitVal c), [])
    else if c = '$' then (.dollar, []) else (.norm, [])
  | .num acc =>
    if c.isDigit then (.num (10 * acc + digitVal c), [])
    else if c = '$' then (.dollar, [acc]) else (.norm, [acc])

/-- Run the placeholder scanner from a given state. -/
def phScan (st : PhSt) : GoStr → List Nat
  | [] => phFlush st
  | c :: rest =>
    let (st', out) := phStep st c
    out ++ phScan st' rest

/-- The ordered list of `$N` placeholder numbers appearing in a string. -/
def phNums (s : GoStr) : List Nat := phScan .norm s

/-! ## The condition builder (`sqlcdynamic.go`) -/

/-- SQL dialect tag. -/
inductive Dialect
  | postgres
  | mysql
  | sqlite
deriving DecidableEq

/-- Go `interface{}` values flowing through the library.  `vnull` is the
nil interface; `vstrList` models `[]string`; `vdate` a parsed `time.Time`
date; `vfloatLit` carries the literal of a `strconv.ParseFloat` result
(no claim depends on float arithmetic, only on which branch produced the
value). -/
inductive GoVal
  | vnull
  | vbool (b : Bool)
  | vint (n : Int)
  | vstr (s : GoStr)
  | vstrList (l : List GoStr)
  | vdate (y m d : Nat)
  | vfloatLit (s : GoStr)
deriving DecidableEq

/-- One rendered WHERE predicate and the number of parameters it consumes. -/
structure Condition where
  SQL : GoStr
  ParamCount : Nat
deriving DecidableEq

/-- The dynamic WHERE-condition builder. -/
structure WhereBuilder where
  conditions : List Condition
  params : List GoVal
  paramIndex : Nat
  dialect : Dialect
deriving DecidableEq

/-- Model of `NewWhereBuilder`. -/
def NewWhereBuilder (d : Dialect) : WhereBuilder :=
  { conditions := [], params := [], paramIndex := 0, dialect := d }

/-- Model of the `placeholder` helper: bump the running counter and render
the dialect's placeholder for the new value. -/
def WhereBuilder.placeholderStep (w : WhereBuilder) : GoStr × WhereBuilder :=
  let idx := w.paramIndex + 1
  let w' := { w with paramIndex := idx }
  match w.dialect with
  | .postgres => ('$' :: natToChars idx, w')
  | .mysql => (['?'], w')
  | .sqlite => (['?'], w')

/-- Model of the `addCondition` helper. -/
def WhereBuilder.addCondition (w : WhereBuilder) (sql : GoStr) (p : GoVal) : WhereBuilder :=
  { w with conditions := w.conditions ++ [⟨sql, 1⟩], params := w.params ++ [p] }

/-- Model of the `addConditionWithParams` helper. -/
def WhereBuilder.addConditionWithParams (w : WhereBuilder) (sql : GoStr) (ps : List GoVal) :
    WhereBuilder :=
  { w with conditions := w.conditions ++ [⟨sql, ps.length⟩], params := w.params ++ ps }

/-- Model of `WhereBuilder.Equal`.  (The `ValidateColumnName` call in the
source ignores its result, so it has no observable effect.) -/
def WhereBuilder.Equal (w : WhereBuilder) (column : GoStr) (value : GoVal) : WhereBuilder :=
  if value = .vnull then w
  else
    let (ph, w') := w.placeholderStep
    w'.addCondition (column ++ gs (" = ") ++ ph) value

/-- Model of `WhereBuilder.NotEqual`. -/
def WhereBuilder.NotEqual (w : WhereBuilder) (column : GoStr) (value : GoVal) : WhereBuilder :=
  if value = .vnull then w
  else
    let (ph, w') := w.placeholderStep
    w'.addCondition (column ++ gs (" != ") ++ ph) value

/-- Model of `WhereBuilder.GreaterThan`. -/
def WhereBuilder.GreaterThan (w : WhereBuilder) (column : GoStr) (value : GoVal) : WhereBuilder :=
  if value = .vnull then w
  else
    let (ph, w') := w.placeholderStep
    w'.addCondition (column ++ gs (" > ") ++ ph) value

/-- Model of `WhereBuilder.LessThan`. -/
def WhereBuilder.LessThan (w : WhereBuilder) (column : GoStr) (value : GoVal) : WhereBuilder :=
  if value = .vnull then w
  else
    let (ph, w') := w.placeholderStep
    w'.addCondition (column ++ gs (" < ") ++ ph) value

/-- Model of `WhereBuilder.Like` (string-typed pattern; skipped when empty). -/
def WhereBuilder.Like (w : WhereBuilder) (column : GoStr) (value : GoStr) : WhereBuilder :=
  if value = [] then w
  else
    let (ph, w') := w.placeholderStep
    w'.addCondition (column ++ gs (" LIKE ") ++ ph) (.vstr value)

/-- Model of `WhereBuilder.ILike`: native `ILIKE` on Postgres, a
`LOWER(...) LIKE LOWER(...)` fallback elsewhere. -/
def WhereBuilder.ILike (w : WhereBuilder) (column : GoStr) (value : GoStr) : WhereBuilder :=
  if value = [] then w
  else if w.dialect = .postgres then
    let (ph, w') := w.placeholderStep
    w'.addCondition (column ++ gs (" ILIKE ") ++ ph) (.vstr value)
  else
    let (ph, w') := w.placeholderStep
    w'.addCondition (gs ("LOWER(") ++ column ++ gs (") LIKE LOWER(") ++ ph ++ [')'])
      (.vstr value)

/-- Emit `n` placeholders in sequence (the loop body of `In`). -/
def WhereBuilder.placeholderN (w : WhereBuilder) : Nat → List GoStr × WhereBuilder
  | 0 => ([], w)
  | n + 1 =>
    let (ph, w1) := w.placeholderStep
    let (rest, w2) := w1.placeholderN n
    (ph :: rest, w2)

/-- Model of `WhereBuilder.In`. -/
def WhereBuilder.In (w : WhereBuilder) (column : GoStr) (values : List GoVal) : WhereBuilder :=
  if values.length = 0 then w
  else
    let (phs, w') := w.placeholderN values.length
    let sql := column ++ gs (" IN (") ++ List.intercalate (gs (", ")) phs ++ [')']
    { w' with conditions := w'.conditions ++ [⟨sql, values.length⟩],
              params := w'.params ++ values }

/-- Model of `WhereBuilder.Between` (skipped when either bound is nil). -/
def WhereBuilder.Between (w : WhereBuilder) (column : GoStr) (start stop : GoVal) :
    WhereBuilder :=
  if start = .vnull ∨ stop = .vnull then w
  else
    let (ph1, w1) := w.placeholderStep
    let (ph2, w2) := w1.placeholderStep
    w2.addConditionWithParams
      (column ++ gs (" BETWEEN ") ++ ph1 ++ gs (" AND ") ++ ph2) [start, stop]

/-- Model of `WhereBuilder.IsNull`. -/
def WhereBuilder.IsNull (w : WhereBuilder) (column : GoStr) : WhereBuilder :=
  { w with conditions := w.conditions ++ [⟨column ++ gs (" IS NULL"), 0⟩] }

/-- Model of `WhereBuilder.IsNotNull`. -/
def WhereBuilder.IsNotNull (w : WhereBuilder) (column : GoStr) : WhereBuilder :=
  { w with conditions := w.conditions ++ [⟨column ++ gs (" IS NOT NULL"), 0⟩] }

/-- The Postgres branch of `processRawSQL`: `paramCount` times, bump the
counter and replace the first `?` by the new `$N`. -/
def processRawSQLPG : GoStr → Nat → Nat → GoStr × Nat
  | sql, 0, idx => (sql, idx)
  | sql, k + 1, idx =>
    processRawSQLPG (goReplace1 sql ['?'] ('$' :: natToChars (idx + 1))) k (idx + 1)

/-- Model of `processRawSQL`: translate `?` markers for Postgres, advance
the counter only for the other dialects. -/
def processRawSQL (d : Dialect) (sql : GoStr) (paramCount idx : Nat) : GoStr × Nat :=
  if d = .postgres then processRawSQLPG sql paramCount idx
  else (sql, idx + paramCount)

/-- Model of `WhereBuilder.Raw`. -/
def WhereBuilder.Raw (w : WhereBuilder) (sql : GoStr) (ps : List GoVal) : WhereBuilder :=
  let (processedSQL, newIdx) := processRawSQL w.dialect sql ps.length w.paramIndex
  { w with conditions := w.conditions ++ [⟨processedSQL, ps.length⟩],
           params := w.params ++ ps,
           paramIndex := newIdx }

/-- Model of `WhereBuilder.Or`: run `fn` on a fresh sub-builder seeded with
the current counter, then append its conditions OR-joined and
parenthesised as one condition. -/
def WhereBuilder.Or (w : WhereBuilder) (fn : WhereBuilder → WhereBuilder) : WhereBuilder :=
  let sub := fn { NewWhereBuilder w.dialect with paramIndex := w.paramIndex }
  if sub.conditions.length > 0 then
    let orSQL := '(' :: List.intercalate (gs (" OR ")) (sub.conditions.map (·.SQL)) ++ [')']
    { w with conditions := w.conditions ++ [⟨orSQL, sub.params.length⟩],
             params := w.params ++ sub.params,
             paramIndex := sub.paramIndex }
  else w

/-- Model of `WhereBuilder.Build`: AND-join the conditions; empty builders
yield the empty string and an empty parameter list. -/
def WhereBuilder.Build (w : WhereBuilder) : GoStr × List GoVal :=
  if w.conditions.length = 0 then ([], [])
  else (List.intercalate (gs (" AND ")) (w.conditions.map (·.SQL)), w.params)

/-- Model of `WhereBuilder.HasConditions`. -/
def WhereBuilder.HasConditions (w : WhereBuilder) : Bool :=
  w.conditions.length > 0

end Sqld

namespace Sqld

/-! ## The ORDER BY builder and its validation config (`orderby.go`) -/

/-- A (field, direction) sort pair.  Directions are strings in the source
(`"ASC"` / `"DESC"`), and `Add` accepts any direction string. -/
structure SortField where
  Field : GoStr
  Direction : GoStr
deriving DecidableEq

/-- The `SortAsc` constant. -/
def SortAsc : GoStr := gs ("ASC")

/-- The `SortDesc` constant. -/
def SortDesc : GoStr := gs ("DESC")

/-- The dynamic ORDER BY builder: an append-only list of sort fields. -/
structure OrderByBuilder where
  fields : List SortField
deriving DecidableEq

/-- Model of `NewOrderByBuilder`. -/
def NewOrderByBuilder : OrderByBuilder := ⟨[]⟩

/-- Model of `OrderByBuilder.Add`. -/
def OrderByBuilder.Add (ob : OrderByBuilder) (field direction : GoStr) : OrderByBuilder :=
  ⟨ob.fields ++ [⟨field, direction⟩]⟩

/-- Model of `OrderByBuilder.HasFields`. -/
def OrderByBuilder.HasFields (ob : OrderByBuilder) : Bool :=
  ob.fields.length > 0

/-- Model of `OrderByBuilder.Build`: comma-join `"field DIR"` clauses. -/
def OrderByBuilder.Build (ob : OrderByBuilder) : GoStr :=
  if ob.fields.length = 0 then []
  else List.intercalate (gs (", ")) (ob.fields.map (fun f => f.Field ++ [' '] ++ f.Direction))

/-- Look up a key in a Go map modelled as an association list (first
matching entry wins; keys are distinct in every use). -/
def lookupMap {α : Type} (m : List (GoStr × α)) (k : GoStr) : Option α :=
  (m.find? (fun e => e.1 = k)).map (·.2)

/-- Sorting policy: allow-list, name mapping, default sort, field cap.
Go maps become association lists (`AllowedFields` length counts entries
exactly as Go `len` does). -/
structure OrderByConfig where
  AllowedFields : List (GoStr × Bool)
  FieldMappings : List (GoStr × GoStr)
  DefaultSort : List SortField
  MaxSortFields : Int
deriving DecidableEq

/-- Model of `OrderByConfig.IsFieldAllowed`: an empty allow-list allows
everything, otherwise the map lookup decides (absent keys give false). -/
def OrderByConfig.IsFieldAllowed (cfg : OrderByConfig) (field : GoStr) : Bool :=
  if cfg.AllowedFields.length = 0 then true
  else ((lookupMap cfg.AllowedFields field).getD false)

/-- Model of `OrderByConfig.MapField`. -/
def OrderByConfig.MapField (cfg : OrderByConfig) (field : GoStr) : GoStr :=
  (lookupMap cfg.FieldMappings field).getD field

/-- The per-field validation loop of `ValidateAndBuild`: fail on the first
disallowed field, otherwise append the mapped field. -/
def validateLoop (cfg : OrderByConfig) : List SortField → OrderByBuilder →
    Except GoStr OrderByBuilder
  | [], b => .ok b
  | f :: rest, b =>
    if ¬ cfg.IsFieldAllowed f.Field then
      .error (gs ("field '") ++ f.Field ++ gs ("' is not allowed for sorting"))
    else validateLoop cfg rest (b.Add (cfg.MapField f.Field) f.Direction)

/-- Model of `OrderByConfig.ValidateAndBuild`. -/
def OrderByConfig.ValidateAndBuild (cfg : OrderByConfig) (fields : List SortField) :
    Except GoStr OrderByBuilder :=
  if (fields.length : Int) > cfg.MaxSortFields then
    .error (gs ("too many sort fields: ") ++ itoa fields.length ++ gs (" (max ") ++
      itoa cfg.MaxSortFields ++ [')'])
  else if fields.length = 0 then
    .ok (cfg.DefaultSort.foldl
      (fun b f =>
        if cfg.IsFieldAllowed f.Field then b.Add (cfg.MapField f.Field) f.Direction else b)
      NewOrderByBuilder)
  else validateLoop cfg fields NewOrderByBuilder

/-! ## The annotation processor (`annotations.go`) -/

/-- The WHERE-injection marker. -/
def whereMarker : GoStr := gs ("/* sqld:where */")

/-- The cursor-injection marker. -/
def cursorMarker : GoStr := gs ("/* sqld:cursor */")

/-- The ORDER-BY-injection marker. -/
def orderbyMarker : GoStr := gs ("/* sqld:orderby */")

/-- The LIMIT-injection marker. -/
def limitMarker : GoStr := gs ("/* sqld:limit */")

/-- A pagination cursor: ordering value plus 32-bit tie-break id. -/
structure Cursor where
  CreatedAt : GoVal
  ID : Int
deriving DecidableEq

/-- Render a `$N` placeholder. -/
def renderPh (n : Nat) : GoStr := '$' :: natToChars n

/-- Scanner state for `adjustParameterPlaceholders`. -/
inductive AdjSt
  | norm
  | dollar
  | num (acc : Nat)
deriving DecidableEq

/-- One-pass scanner realising the Go regexp replacement
`\$(\d+)  ->  $(N+offset)` of `adjustParameterPlaceholders`: each `$`
followed by a maximal digit run is renumbered, everything else is copied. -/
def adjScan (offset : Nat) : GoStr → AdjSt → GoStr
  | [], .norm => []
  | [], .dollar => ['$']
  | [], .num acc => renderPh (acc + offset)
  | c :: rest, .norm =>
    if c = '$' then adjScan offset rest .dollar else c :: adjScan offset rest .norm
  | c :: rest, .dollar =>
    if c.isDigit then adjScan offset rest (.num (digitVal c))
    else if c = '$' then '$' :: adjScan offset rest .dollar
    else '$' :: c :: adjScan offset rest .norm
  | c :: rest, .num acc =>
    if c.isDigit then adjScan offset rest (.num (10 * acc + digitVal c))
    else if c = '$' then renderPh (acc + offset) ++ adjScan offset rest .dollar
    else renderPh (acc + offset) ++ c :: adjScan offset rest .norm

/-- Model of `AnnotationProcessor.adjustParameterPlaceholders`. -/
def adjustParameterPlaceholders (sql : GoStr) (offset : Nat) : GoStr :=
  adjScan offset sql .norm

/-- The literal part `"ORDER BY "` of the order-by regexp. -/
def obPat : GoStr := gs ("ORDER BY ")

/-- Length of the match of the Go regexp
`ORDER BY ([^/]*)(/\* sqld:orderby \*/)` anchored at the head of `s`
(the `[^/]*` run necessarily stops at the first `/`, where the marker
must begin, since the marker starts with `/`). -/
def obMatchLen (s : GoStr) : Option Nat :=
  if obPat.isPrefixOf s then
    let rest := s.drop 9
    let k := (rest.takeWhile (fun c => c ≠ '/')).length
    if orderbyMarker.isPrefixOf (rest.drop k) then some (9 + k + orderbyMarker.length)
    else none
  else none

/-- Whether the order-by regexp matches anywhere in `s`
(Go `re.MatchString`). -/
def obHasMatch : GoStr → Bool
  | [] => false
  | c :: rest => (obMatchLen (c :: rest)).isSome || obHasMatch rest

/-- Fuel-driven left-to-right replace-all for the order-by regexp
(Go `re.ReplaceAllString`); `fuel ≥ s.length` makes it total. -/
def obReplAux (repl : GoStr) : Nat → GoStr → GoStr
  | 0, s => s
  | fuel + 1, s =>
    match obMatchLen s with
    | some len => repl ++ obReplAux repl fuel (s.drop len)
    | none =>
      match s with
      | [] => []
      | c :: rest => c :: obReplAux repl fuel rest

/-- Replace every match of the order-by regexp in `s` by `repl`. -/
def obReplaceAll (s repl : GoStr) : GoStr := obReplAux repl s.length s

/-- The ORDER BY block of `ProcessQuery`: when the marker is present and a
non-empty dynamic sort is supplied, the whole `ORDER BY ... marker` span
is replaced (if the regexp matches at all); with no dynamic sort the
marker alone is stripped. -/
def processOrderByStep (sql : GoStr) (orderBy : Option OrderByBuilder) : GoStr :=
  if goContains sql orderbyMarker then
    match orderBy with
    | some ob =>
      if ob.HasFields then
        if obHasMatch sql then obReplaceAll sql (gs ("ORDER BY ") ++ ob.Build ++ [' '])
        else sql
      else goReplace1 sql orderbyMarker []
    | none => goReplace1 sql orderbyMarker []
  else sql

/-- The keyset-pagination condition synthesised for a cursor when the
running counter is `paramIndex` — note the same `$N` is used for both
`created_at` comparisons, exactly as the `fmt.Sprintf` in the source. -/
def cursorCondStr (paramIndex : Nat) : GoStr :=
  gs ("(created_at < ") ++ renderPh (paramIndex + 1) ++ gs (" OR (created_at = ") ++
    renderPh (paramIndex + 1) ++ gs (" AND id < ") ++ renderPh (paramIndex + 2) ++
    gs ("))")

/-- Intermediate state of `ProcessQuery`: collected WHERE fragments,
parameter list and running counter. -/
structure APhase where
  whereConditions : List GoStr
  params : List GoVal
  paramIndex : Nat
deriving DecidableEq

/-- The cursor block of `ProcessQuery`: when a cursor is supplied and the
cursor marker occurs, add the keyset condition, append the ordering value
and the id, and advance the counter by two. -/
def apCursorPhase (sql : GoStr) (cursor : Option Cursor) (params : List GoVal) : APhase :=
  let paramIndex := params.length
  match cursor with
  | some c =>
    if goContains sql cursorMarker then
      { whereConditions := [cursorCondStr paramIndex],
        params := params ++ [c.CreatedAt, .vint c.ID],
        paramIndex := paramIndex + 2 }
    else { whereConditions := [], params := params, paramIndex := paramIndex }
  | none => { whereConditions := [], params := params, paramIndex := paramIndex }

/-- The dynamic-where block of `ProcessQuery`: render the builder, shift
its placeholders by the current counter, append its parameters. -/
def apWherePhase (st : APhase) (w : Option WhereBuilder) : APhase :=
  match w with
  | some wb =>
    if wb.HasConditions then
      let (whereSQL, whereParams) := wb.Build
      let adjusted := adjustParameterPlaceholders whereSQL st.paramIndex
      { whereConditions := st.whereConditions ++ [adjusted],
        params := st.params ++ whereParams,
        paramIndex := st.paramIndex + whereParams.length }
    else st
  | none => st

/-- The WHERE-marker substitution of `ProcessQuery`: with conditions the
marker becomes `" AND "` plus the AND-joined conditions, otherwise it is
removed. -/
def apSubstWhere (sql : GoStr) (conds : List GoStr) : GoStr :=
  if conds.length > 0 ∧ goContains sql whereMarker then
    goReplace1 sql whereMarker (gs (" AND ") ++ List.intercalate (gs (" AND ")) conds)
  else goReplace1 sql whereMarker []

/-- The LIMIT block of `ProcessQuery`. -/
def apLimitPhase (d : Dialect) (sql : GoStr) (limit : Int) (paramIndex : Nat)
    (params : List GoVal) : GoStr × List GoVal :=
  if limit > 0 ∧ goContains sql limitMarker then
    let limitSQL :=
      match d with
      | .postgres => gs (" LIMIT $") ++ natToChars (paramIndex + 1)
      | .mysql => gs (" LIMIT ?")
      | .sqlite => gs (" LIMIT ?")
    (goReplace1 sql limitMarker limitSQL, params ++ [.vint limit])
  else (goReplace1 sql limitMarker [], params)

/-- Model of `AnnotationProcessor.ProcessQuery`.  The Go function also
returns an error value, but it is always nil, so the model returns the
(sql, params) pair. -/
def ProcessQuery (d : Dialect) (originalSQL : GoStr) (whereB : Option WhereBuilder)
    (cursor : Option Cursor) (orderBy : Option OrderByBuilder) (limit : Int)
    (originalParams : List GoVal) : GoStr × List GoVal :=
  let st0 := apCursorPhase originalSQL cursor originalParams
  let st1 := apWherePhase st0 whereB
  let sql1 := apSubstWhere originalSQL st1.whereConditions
  let sql2 := goReplace1 sql1 cursorMarker []
  let sql3 := processOrderByStep sql2 orderBy
  apLimitPhase d sql3 limit st1.paramIndex st1.params

end Sqld

namespace Sqld

/-! ## Query-string filter parsing (`queryfilter.go`)

Operators are strings in the source (`type Operator string`); they stay
strings here. -/

/-- Operator constant `OpEq`. -/
def OpEq : GoStr := gs ("=")

/-- Operator constant `OpNe`. -/
def OpNe : GoStr := gs ("!=")

/-- Operator constant `OpGt`. -/
def OpGt : GoStr := gs (">")

/-- Operator constant `OpGte`. -/
def OpGte : GoStr := gs (">=")

/-- Operator constant `OpLt`. -/
def OpLt : GoStr := gs ("<")

/-- Operator constant `OpLte`. -/
def OpLte : GoStr := gs ("<=")

/-- Operator constant `OpLike`. -/
def OpLike : GoStr := gs ("LIKE")

/-- Operator constant `OpILike`. -/
def OpILike : GoStr := gs ("ILIKE")

/-- Operator constant `OpContains`. -/
def OpContains : GoStr := gs ("contains")

/-- Operator constant `OpIncludes`. -/
def OpIncludes : GoStr := gs ("includes")

/-- Operator constant `OpDoesNotContain`. -/
def OpDoesNotContain : GoStr := gs ("doesNotContain")

/-- Operator constant `OpStartsWith`. -/
def OpStartsWith : GoStr := gs ("startsWith")

/-- Operator constant `OpEndsWith`. -/
def OpEndsWith : GoStr := gs ("endsWith")

/-- Operator constant `OpDoesNotStartWith`. -/
def OpDoesNotStartWith : GoStr := gs ("doesNotStartWith")

/-- Operator constant `OpDoesNotEndWith`. -/
def OpDoesNotEndWith : GoStr := gs ("doesNotEndWith")

/-- Operator constant `OpBetween`. -/
def OpBetween : GoStr := gs ("between")

/-- Operator constant `OpBefore`. -/
def OpBefore : GoStr := gs ("before")

/-- Operator constant `OpAfter`. -/
def OpAfter : GoStr := gs ("after")

/-- Operator constant `OpIn`. -/
def OpIn : GoStr := gs ("in")

/-- Operator constant `OpNotIn`. -/
def OpNotIn : GoStr := gs ("notIn")

/-- Operator constant `OpIsNull`. -/
def OpIsNull : GoStr := gs ("isNull")

/-- Operator constant `OpIsNotNull`. -/
def OpIsNotNull : GoStr := gs ("isNotNull")

/-- Model of `MapOperator`: lower-case the token and map it through the
fixed table; unrecognised tokens fall back to `OpEq`.  (The source's
`case "notin", "notIn"` second alternative can never fire after
lower-casing; it is kept for fidelity.) -/
def MapOperator (op : GoStr) : GoStr :=
  let o := goToLower op
  if o = gs ("gt") then OpGt
  else if o = gs ("gte") then OpGte
  else if o = gs ("lt") then OpLt
  else if o = gs ("lte") then OpLte
  else if o = gs ("ne") ∨ o = gs ("neq") then OpNe
  else if o = gs ("sw") ∨ o = gs ("startswith") then OpStartsWith
  else if o = gs ("ew") ∨ o = gs ("endswith") then OpEndsWith
  else if o = gs ("includes") ∨ o = gs ("contains") then OpContains
  else if o = gs ("notcontains") ∨ o = gs ("doesnotcontain") then OpDoesNotContain
  else if o = gs ("notstartswith") ∨ o = gs ("doesnotstartswith") then OpDoesNotStartWith
  else if o = gs ("notendswith") ∨ o = gs ("doesnotendwith") then OpDoesNotEndWith
  else if o = gs ("between") then OpBetween
  else if o = gs ("before") then OpBefore
  else if o = gs ("after") then OpAfter
  else if o = gs ("in") then OpIn
  else if o = gs ("notin") ∨ o = gs ("notIn") then OpNotIn
  else if o = gs ("isnull") ∨ o = gs ("null") then OpIsNull
  else if o = gs ("isnotnull") ∨ o = gs ("notnull") then OpIsNotNull
  else if o = gs ("like") then OpLike
  else if o = gs ("ilike") then OpILike
  else OpEq

/-- The fixed list of operator tokens recognised by `isValidOperator`. -/
def validOps : List GoStr :=
  [gs ("gt"), gs ("gte"), gs ("lt"), gs ("lte"), gs ("ne"), gs ("neq"), gs ("eq"),
   gs ("sw"), gs ("startswith"), gs ("ew"), gs ("endswith"),
   gs ("contains"), gs ("includes"), gs ("notcontains"), gs ("doesnotcontain"),
   gs ("notstartswith"), gs ("doesnotstartswith"), gs ("notendswith"), gs ("doesnotendwith"),
   gs ("between"), gs ("before"), gs ("after"), gs ("in"), gs ("notin"), gs ("notIn"),
   gs ("isnull"), gs ("null"), gs ("isnotnull"), gs ("notnull"), gs ("like"), gs ("ilike")]

/-- Model of `isValidOperator`: membership of the lower-cased token in the
fixed list. -/
def isValidOperator (op : GoStr) : Bool :=
  validOps.any (fun v => goToLower op = v)

/-- Model of `parseFieldOperator`: bracket syntax first, then underscore
syntax (only when the token after the last underscore is a known
operator), else the whole key with the default operator. -/
def parseFieldOperator (key : GoStr) (defaultOp : GoStr) : GoStr × GoStr :=
  if goContains key (gs ("[")) ∧ goEndsWith key (gs ("]")) then
    let parts := goSplitN2 '[' key
    let field := parts.headI
    let opStr := goTrimEnd (parts.getD 1 []) (gs ("]"))
    (field, MapOperator opStr)
  else if goContains key (gs ("_")) then
    let parts := goSplitChar '_' key
    if parts.length ≥ 2 then
      let opStr := parts.getLast!
      if isValidOperator opStr then
        (List.intercalate ['_'] parts.dropLast, MapOperator opStr)
      else (key, defaultOp)
    else (key, defaultOp)
  else (key, defaultOp)

/-- Date parsing for the library's default layout `"2006-01-02"`:
a 4-digit year, 1–2-digit month in 1..12 and 1–2-digit day in 1..31,
dash-separated, consuming the whole string.  Only the default layout is
modelled (a custom layout is treated as non-parsing); `convertValue`
falls back to the raw string on parse failure either way, so no claim is
sensitive to this. -/
def parseDateYMD (value : GoStr) : Option (Nat × Nat × Nat) :=
  match goSplitChar '-' value with
  | [ys, ms, ds] =>
    if ys.length = 4 ∧ ys.all Char.isDigit ∧
       (ms.length = 1 ∨ ms.length = 2) ∧ ms.all Char.isDigit ∧
       (ds.length = 1 ∨ ds.length = 2) ∧ ds.all Char.isDigit then
      let m := digitsVal ms
      let d := digitsVal ds
      if 1 ≤ m ∧ m ≤ 12 ∧ 1 ≤ d ∧ d ≤ 31 then some (digitsVal ys, m, d) else none
    else none
  | _ => none

/-- Model of Go `time.Parse(layout, value)` restricted to the default
layout (see `parseDateYMD`). -/
def parseDateLayout (layout value : GoStr) : Option (Nat × Nat × Nat) :=
  if layout = gs ("2006-01-02") then parseDateYMD value else none

/-- An optionally signed digit run (helper for the float grammar). -/
def floatSgnDigits (s : GoStr) : Bool :=
  match s with
  | '+' :: ds => ds ≠ [] ∧ ds.all Char.isDigit
  | '-' :: ds => ds ≠ [] ∧ ds.all Char.isDigit
  | ds => ds ≠ [] ∧ ds.all Char.isDigit

/-- Optional exponent suffix of a decimal float literal: empty, or
`e`/`E` followed by an optionally signed digit run. -/
def floatExpOk (s : GoStr) : Bool :=
  match s with
  | [] => true
  | 'e' :: r => floatSgnDigits r
  | 'E' :: r => floatSgnDigits r
  | _ => false

/-- Body of `goParseFloatOk` after the optional sign: digits with an
optional fraction (at least one digit overall), then an optional
exponent. -/
def floatBodyOk (body : GoStr) : Bool :=
  let intPart := body.takeWhile Char.isDigit
  let afterInt := body.drop intPart.length
  match afterInt with
  | '.' :: frac =>
    let fracDigits := frac.takeWhile Char.isDigit
    (intPart.length + fracDigits.length > 0) ∧ floatExpOk (frac.drop fracDigits.length)
  | r => intPart.length > 0 ∧ floatExpOk r

/-- Syntactic validity of a decimal literal for `strconv.ParseFloat`
(sign, digits with optional fraction, optional exponent; the exotic
hex/inf/NaN forms are not modelled — no claim touches them). -/
def goParseFloatOk (s : GoStr) : Bool :=
  match s with
  | '+' :: r => floatBodyOk r
  | '-' :: r => floatBodyOk r
  | r => floatBodyOk r

/-- Model of `convertValue`: coerce the raw string according to the
operator.  Only the BETWEEN arm can fail. -/
def convertValue (value : GoStr) (op : GoStr) (dateLayout : GoStr) : Except GoStr GoVal :=
  if op = OpBetween then
    let parts := goSplitChar ',' value
    if parts.length ≠ 2 then
      .error (gs ("between operator requires exactly 2 comma-separated values"))
    else .ok (.vstrList [goTrimSpace parts.headI, goTrimSpace (parts.getD 1 [])])
  else if op = OpIn ∨ op = OpNotIn then
    .ok (.vstrList ((goSplitChar ',' value).map goTrimSpace))
  else if op = OpBefore ∨ op = OpAfter then
    if dateLayout ≠ [] then
      match parseDateLayout dateLayout value with
      | some (y, m, d) => .ok (.vdate y m d)
      | none => .ok (.vstr value)
    else .ok (.vstr value)
  else if op = OpIsNull ∨ op = OpIsNotNull then .ok .vnull
  else if op = OpGt ∨ op = OpGte ∨ op = OpLt ∨ op = OpLte then
    match goAtoi value with
    | some n => .ok (.vint n)
    | none => if goParseFloatOk value then .ok (.vfloatLit value) else .ok (.vstr value)
  else .ok (.vstr value)

/-- Filter-parsing policy (`QueryFilterConfig`); Go maps become
association lists. -/
structure QueryFilterConfig where
  AllowedFields : List (GoStr × Bool)
  FieldMappings : List (GoStr × GoStr)
  DefaultOperator : GoStr
  DateLayout : GoStr
  MaxFilters : Int
deriving DecidableEq

/-- A parsed filter descriptor. -/
structure Filter where
  Field : GoStr
  Operator : GoStr
  Value : GoVal
deriving DecidableEq

/-- The loop body of `ParseURLValues`.  `url.Values` is a Go map whose
iteration order is unspecified; it is modelled as the given entry list in
list order.  The count check happens before each entry, empty values and
disallowed fields are skipped, a conversion error aborts the whole parse
(returning no partial list), otherwise the filter is appended. -/
def parseURLValuesAux (cfg : QueryFilterConfig) :
    List (GoStr × List GoStr) → List Filter → Except GoStr (List Filter)
  | [], acc => .ok acc
  | (key, vals) :: rest, acc =>
    if (acc.length : Int) ≥ cfg.MaxFilters then
      .error (gs ("too many filters, maximum allowed: ") ++ itoa cfg.MaxFilters)
    else if vals.length = 0 ∨ vals.headI = [] then parseURLValuesAux cfg rest acc
    else
      let fo := parseFieldOperator key cfg.DefaultOperator
      let field := (lookupMap cfg.FieldMappings fo.1).getD fo.1
      if cfg.AllowedFields.length > 0 ∧ ¬ (lookupMap cfg.AllowedFields field).getD false then
        parseURLValuesAux cfg rest acc
      else
        match convertValue vals.headI fo.2 cfg.DateLayout with
        | .error e => .error (gs ("invalid value for field ") ++ field ++ gs (": ") ++ e)
        | .ok v => parseURLValuesAux cfg rest (acc ++ [⟨field, fo.2, v⟩])

/-- Model of `ParseURLValues`. -/
def ParseURLValues (values : List (GoStr × List GoStr)) (cfg : QueryFilterConfig) :
    Except GoStr (List Filter) :=
  parseURLValuesAux cfg values []

end Sqld

namespace Sqld

/-! ## Claim C5: no-op on absent values -/

/-- C5: every condition-adding call with an "absent" value — `Equal` with
nil, `Like` with the empty pattern, `In` with an empty list, `Between`
with a nil bound on either side — returns the builder completely
unchanged: same conditions, same parameters, same counter. -/
theorem C5_noop_on_absent_values (w : WhereBuilder) (f : GoStr) (x : GoVal) :
    w.Equal f .vnull = w ∧ w.Like f [] = w ∧ w.In f [] = w ∧
    w.Between f .vnull x = w ∧ w.Between f x .vnull = w := by
  refine ⟨?_, ?_, ?_, ?_, ?_⟩ <;>
    simp [WhereBuilder.Equal, WhereBuilder.Like, WhereBuilder.In, WhereBuilder.Between]

/-! ## Claim C7: ValidateAndBuild error behaviour -/

/-- The count-exceeded message of `ValidateAndBuild`. -/
def tooManySortMsg (n : Nat) (maxN : Int) : GoStr :=
  gs ("too many sort fields: ") ++ itoa n ++ gs (" (max ") ++ itoa maxN ++ [')']

/-- The disallowed-field message of `ValidateAndBuild`. -/
def notAllowedMsg (field : GoStr) : GoStr :=
  gs ("field '") ++ field ++ gs ("' is not allowed for sorting")

lemma validateLoop_ok (cfg : OrderByConfig) (fs : List SortField) (b : OrderByBuilder)
    (h : ∀ f ∈ fs, cfg.IsFieldAllowed f.Field = true) :
    validateLoop cfg fs b =
      .ok ⟨b.fields ++ fs.map (fun f => ⟨cfg.MapField f.Field, f.Direction⟩)⟩ := by
  induction fs generalizing b with
  | nil => simp [validateLoop]
  | cons f rest ih =>
    have hf := h f (by simp)
    simp only [validateLoop, hf, Bool.not_true, Bool.false_eq_true, if_false,
      not_true_eq_false]
    rw [ih _ (fun g hg => h g (by simp [hg]))]
    simp [OrderByBuilder.Add]

lemma validateLoop_err (cfg : OrderByConfig) (fs : List SortField) (b : OrderByBuilder)
    (f : SortField) (h : fs.find? (fun f => ! cfg.IsFieldAllowed f.Field) = some f) :
    validateLoop cfg fs b = .error (notAllowedMsg f.Field) := by
  induction fs generalizing b with
  | nil => simp at h
  | cons g rest ih =>
    by_cases hg : cfg.IsFieldAllowed g.Field
    · rw [List.find?_cons_of_neg] at h
      · simp only [validateLoop, hg, not_true_eq_false, if_false]
        exact ih _ h
      · simp [hg]
    · rw [List.find?_cons_of_pos] at h
      · cases h
        simp [validateLoop, hg, notAllowedMsg]
      · simp [hg]

lemma default_fold_eq_filter_map (cfg : OrderByConfig) (l : List SortField)
    (b : OrderByBuilder) :
    l.foldl
      (fun b f =>
        if cfg.IsFieldAllowed f.Field then b.Add (cfg.MapField f.Field) f.Direction else b)
      b =
      ⟨b.fields ++ (l.filter (fun f => cfg.IsFieldAllowed f.Field)).map
        (fun f => ⟨cfg.MapField f.Field, f.Direction⟩)⟩ := by
  induction l generalizing b with
  | nil => simp
  | cons f rest ih =>
    simp only [List.foldl_cons, List.filter_cons]
    by_cases hf : cfg.IsFieldAllowed f.Field = true
    · rw [if_pos hf, if_pos hf, ih]
      simp [OrderByBuilder.Add]
    · rw [if_neg hf, if_neg hf, ih]

/-- C7: `ValidateAndBuild` fails exactly when the field count exceeds
`MaxSortFields` or the (non-empty) field list contains a disallowed
field.  The count error carries the limit, the allow-list error names the
first disallowed field, an empty input builds the default sort with
disallowed defaults silently skipped, and an all-allowed input is
name-mapped in order. -/
theorem C7_validate_and_build (cfg : OrderByConfig) (fields : List SortField) :
    ((cfg.ValidateAndBuild fields).isOk = false ↔
      ((fields.length : Int) > cfg.MaxSortFields ∨
        (fields ≠ [] ∧ ∃ f ∈ fields, cfg.IsFieldAllowed f.Field = false))) ∧
    ((fields.length : Int) > cfg.MaxSortFields →
      cfg.ValidateAndBuild fields = .error (tooManySortMsg fields.length cfg.MaxSortFields)) ∧
    (fields = [] → (fields.length : Int) ≤ cfg.MaxSortFields →
      cfg.ValidateAndBuild fields =
        .ok ⟨(cfg.DefaultSort.filter (fun f => cfg.IsFieldAllowed f.Field)).map
          (fun f => ⟨cfg.MapField f.Field, f.Direction⟩)⟩) ∧
    (fields ≠ [] → (fields.length : Int) ≤ cfg.MaxSortFields →
      (∀ f ∈ fields, cfg.IsFieldAllowed f.Field = true) →
      cfg.ValidateAndBuild fields =
        .ok ⟨fields.map (fun f => ⟨cfg.MapField f.Field, f.Direction⟩)⟩) ∧
    (∀ f, (fields.length : Int) ≤ cfg.MaxSortFields →
      fields.find? (fun f => ! cfg.IsFieldAllowed f.Field) = some f →
      cfg.ValidateAndBuild fields = .error (notAllowedMsg f.Field)) := by
  by_cases hmax : (fields.length : Int) > cfg.MaxSortFields
  · have hres : cfg.ValidateAndBuild fields =
        .error (tooManySortMsg fields.length cfg.MaxSortFields) := by
      unfold OrderByConfig.ValidateAndBuild
      rw [if_pos hmax]
      rfl
    refine ⟨?_, fun _ => hres, ?_, ?_, ?_⟩
    · rw [hres]
      simp [Except.isOk, Except.toBool, hmax]
    · intro _ hle; exact absurd hmax (not_lt.mpr hle)
    · intro _ hle _; exact absurd hmax (not_lt.mpr hle)
    · intro _ hle _; exact absurd hmax (not_lt.mpr hle)
  · by_cases hemp : fields = []
    · subst hemp
      have hres : cfg.ValidateAndBuild [] =
          .ok ⟨(cfg.DefaultSort.filter (fun f => cfg.IsFieldAllowed f.Field)).map
            (fun f => ⟨cfg.MapField f.Field, f.Direction⟩)⟩ := by
        unfold OrderByConfig.ValidateAndBuild
        have h0 : ([] : List SortField).length = 0 := rfl
        rw [if_neg hmax, if_pos h0, default_fold_eq_filter_map]
        simp [NewOrderByBuilder]
      refine ⟨?_, fun h => absurd h hmax, fun _ _ => hres, ?_, ?_⟩
      · rw [hres]
        simp only [Except.isOk, Except.toBool]
        simpa using hmax
      · intro h
        exact absurd rfl h
      · intro f _ hfind
        simp at hfind
    · have hlen : ¬ fields.length = 0 := by
        simpa [List.length_eq_zero] using hemp
      have hloop : cfg.ValidateAndBuild fields = validateLoop cfg fields NewOrderByBuilder := by
        unfold OrderByConfig.ValidateAndBuild
        rw [if_neg hmax, if_neg hlen]
      refine ⟨?_, fun h => absurd h hmax, fun h => absurd h hemp, ?_, ?_⟩
      · rw [hloop]
        constructor
        · intro hOk
          refine Or.inr ⟨hemp, ?_⟩
          by_contra hall
          push_neg at hall
          have : ∀ f ∈ fields, cfg.IsFieldAllowed f.Field = true := by
            intro f hf
            have := hall f hf
            revert this
            cases cfg.IsFieldAllowed f.Field <;> simp
          rw [validateLoop_ok cfg fields _ this] at hOk
          simp [Except.isOk, Except.toBool] at hOk
        · rintro (h | ⟨-, f, hf, hnal⟩)
          · exact absurd h hmax
          · have : (fields.find? (fun f => ! cfg.IsFieldAllowed f.Field)).isSome := by
              rw [List.find?_isSome]
              exact ⟨f, hf, by simp [hnal]⟩
            obtain ⟨g, hg⟩ := Option.isSome_iff_exists.mp this
            rw [validateLoop_err cfg fields _ g hg]
            simp [Except.isOk, Except.toBool]
      · intro _ _ hall
        rw [hloop, validateLoop_ok cfg fields _ hall]
        simp [NewOrderByBuilder]
      · intro f _ hfind
        rw [hloop]
        exact validateLoop_err cfg fields _ f hfind

/-- Witness for C7 at concrete inputs: an allow-list `{name}` with input
`[secret]` fails naming `secret`, and input `[name]` succeeds. -/
theorem C7_validate_and_build_witness :
    ((OrderByConfig.mk [(gs ("name"), true)] [] [] 5).ValidateAndBuild
        [⟨gs ("secret"), SortAsc⟩] =
      .error (notAllowedMsg (gs ("secret")))) ∧
    ((OrderByConfig.mk [(gs ("name"), true)] [] [] 5).ValidateAndBuild
        [⟨gs ("name"), SortDesc⟩] =
      .ok ⟨[⟨gs ("name"), SortDesc⟩]⟩) := by
  constructor
  · exact (C7_validate_and_build (OrderByConfig.mk [(gs ("name"), true)] [] [] 5)
      [⟨gs ("secret"), SortAsc⟩]).2.2.2.2 ⟨gs ("secret"), SortAsc⟩ (by decide) (by decide)
  · exact (C7_validate_and_build (OrderByConfig.mk [(gs ("name"), true)] [] [] 5)
      [⟨gs ("name"), SortDesc⟩]).2.2.2.1 (by decide) (by decide) (by decide)

end Sqld

namespace Sqld

/-! ## Claim C8: underscore operator extraction

An independent characterisation of "the text after / before the last
separator" is set up, to compare with the split-and-join route taken by
`parseFieldOperator`. -/

/-- The suffix of `s` after the last occurrence of `sep` (all of `s` when
`sep` does not occur). -/
def afterLastSep (sep : Char) (s : GoStr) : GoStr :=
  (s.reverse.takeWhile (fun c => c ≠ sep)).reverse

/-- The prefix of `s` before the last occurrence of `sep` (empty when
`sep` does not occur). -/
def beforeLastSep (sep : Char) (s : GoStr) : GoStr :=
  ((s.reverse.dropWhile (fun c => c ≠ sep)).drop 1).reverse

lemma takeWhile_append_stop (p : Char → Bool) (xs ys : GoStr) (a : Char)
    (ha : a ∈ xs) (hpa : p a = false) :
    (xs ++ ys).takeWhile p = xs.takeWhile p := by
  induction xs with
  | nil => cases ha
  | cons x xs' ih =>
    rw [List.cons_append, List.takeWhile_cons, List.takeWhile_cons]
    cases hpx : p x with
    | false => rfl
    | true =>
      have hax : a ∈ xs' := by
        rcases List.mem_cons.mp ha with h' | h'
        · subst h'; rw [hpa] at hpx; cases hpx
        · exact h'
      simp only [ih hax]

lemma takeWhile_all_true (p : Char → Bool) (xs : GoStr) (h : ∀ x ∈ xs, p x = true) :
    xs.takeWhile p = xs := by
  induction xs with
  | nil => rfl
  | cons x xs' ih =>
    rw [List.takeWhile_cons, h x (List.mem_cons_self x xs')]
    simp only [if_true, ih (fun y hy => h y (List.mem_cons_of_mem x hy))]

lemma takeWhile_append_true (p : Char → Bool) (xs ys : GoStr) (h : ∀ x ∈ xs, p x = true) :
    (xs ++ ys).takeWhile p = xs ++ ys.takeWhile p := by
  induction xs with
  | nil => rfl
  | cons x xs' ih =>
    rw [List.cons_append, List.takeWhile_cons, h x (List.mem_cons_self x xs')]
    simp only [if_true, ih (fun y hy => h y (List.mem_cons_of_mem x hy)), List.cons_append]

lemma dropWhile_append_stop (p : Char → Bool) (xs ys : GoStr) (a : Char)
    (ha : a ∈ xs) (hpa : p a = false) :
    (xs ++ ys).dropWhile p = xs.dropWhile p ++ ys := by
  induction xs with
  | nil => cases ha
  | cons x xs' ih =>
    rw [List.cons_append, List.dropWhile_cons, List.dropWhile_cons]
    cases hpx : p x with
    | false => rfl
    | true =>
      have hax : a ∈ xs' := by
        rcases List.mem_cons.mp ha with h' | h'
        · subst h'; rw [hpa] at hpx; cases hpx
        · exact h'
      simp [ih hax]

lemma dropWhile_append_true (p : Char → Bool) (xs ys : GoStr) (h : ∀ x ∈ xs, p x = true) :
    (xs ++ ys).dropWhile p = ys.dropWhile p := by
  induction xs with
  | nil => rfl
  | cons x xs' ih =>
    rw [List.cons_append, List.dropWhile_cons, h x (List.mem_cons_self x xs')]
    simp only [if_true, ih (fun y hy => h y (List.mem_cons_of_mem x hy))]

lemma dropWhile_first_false (p : Char → Bool) (xs : GoStr) (a : Char)
    (ha : a ∈ xs) (hpa : p a = false) :
    ∃ z zs, xs.dropWhile p = z :: zs ∧ p z = false := by
  induction xs with
  | nil => cases ha
  | cons x xs' ih =>
    rw [List.dropWhile_cons]
    cases hpx : p x with
    | false => exact ⟨x, xs', by simp, hpx⟩
    | true =>
      have hax : a ∈ xs' := by
        rcases List.mem_cons.mp ha with h' | h'
        · subst h'; rw [hpa] at hpx; cases hpx
        · exact h'
      simpa using ih hax

lemma neBool_false_eq (sep z : Char) (h : (fun c => decide (c ≠ sep)) z = false) : z = sep := by
  simpa using h

lemma neBool_true_of_mem (sep : Char) (xs : GoStr) (h : sep ∉ xs) :
    ∀ x ∈ xs, (fun c => decide (c ≠ sep)) x = true := by
  intro x hx
  simp only [decide_eq_true_eq]
  intro he
  exact h (he ▸ hx)

lemma afterLastSep_cons_sep (sep : Char) (rest : GoStr) :
    afterLastSep sep (sep :: rest) = afterLastSep sep rest := by
  unfold afterLastSep
  rw [List.reverse_cons]
  by_cases hmem : sep ∈ rest.reverse
  · rw [takeWhile_append_stop _ _ _ sep hmem (by simp)]
  · rw [takeWhile_append_true _ _ _ (neBool_true_of_mem sep _ hmem),
      takeWhile_all_true _ _ (neBool_true_of_mem sep _ hmem)]
    simp [List.takeWhile_cons]

lemma afterLastSep_cons_mem (sep c : Char) (rest : GoStr) (h : sep ∈ rest) :
    afterLastSep sep (c :: rest) = afterLastSep sep rest := by
  unfold afterLastSep
  rw [List.reverse_cons, takeWhile_append_stop _ _ _ sep (by simpa using h) (by simp)]

lemma afterLastSep_not_mem (sep : Char) (s : GoStr) (h : sep ∉ s) :
    afterLastSep sep s = s := by
  unfold afterLastSep
  rw [takeWhile_all_true _ _ (neBool_true_of_mem sep _ (by simpa using h)),
    List.reverse_reverse]

lemma beforeLastSep_not_mem (sep : Char) (s : GoStr) (h : sep ∉ s) :
    beforeLastSep sep s = [] := by
  unfold beforeLastSep
  have : s.reverse.dropWhile (fun c => decide (c ≠ sep)) = [] := by
    have := dropWhile_append_true (fun c => decide (c ≠ sep)) s.reverse []
      (neBool_true_of_mem sep _ (by simpa using h))
    simpa using this
  rw [this]
  rfl

lemma beforeLastSep_cons_sep_not_mem (sep : Char) (rest : GoStr) (h : sep ∉ rest) :
    beforeLastSep sep (sep :: rest) = [] := by
  unfold beforeLastSep
  rw [List.reverse_cons,
    dropWhile_append_true _ _ _ (neBool_true_of_mem sep _ (by simpa using h))]
  simp [List.dropWhile_cons]

lemma beforeLastSep_cons_sep_mem (sep : Char) (rest : GoStr) (h : sep ∈ rest) :
    beforeLastSep sep (sep :: rest) = sep :: beforeLastSep sep rest := by
  unfold beforeLastSep
  rw [List.reverse_cons,
    dropWhile_append_stop _ _ _ sep (by simpa using h) (by simp)]
  obtain ⟨z, zs, hzzs, hz⟩ :=
    dropWhile_first_false (fun c => decide (c ≠ sep)) rest.reverse sep (by simpa using h)
      (by simp)
  have hzsep : z = sep := neBool_false_eq sep z hz
  subst hzsep
  rw [hzzs]
  simp

lemma beforeLastSep_cons_mem (sep c : Char) (rest : GoStr) (h : sep ∈ rest) :
    beforeLastSep sep (c :: rest) = c :: beforeLastSep sep rest := by
  unfold beforeLastSep
  rw [List.reverse_cons,
    dropWhile_append_stop _ _ _ sep (by simpa using h) (by simp)]
  obtain ⟨z, zs, hzzs, hz⟩ :=
    dropWhile_first_false (fun c => decide (c ≠ sep)) rest.reverse sep (by simpa using h)
      (by simp)
  have hzsep : z = sep := neBool_false_eq sep z hz
  subst hzsep
  rw [hzzs]
  simp

lemma goSplitChar_ne_nil (sep : Char) (s : GoStr) : goSplitChar sep s ≠ [] := by
  cases s with
  | nil => simp [goSplitChar]
  | cons c rest =>
    by_cases hc : c = sep
    · simp [goSplitChar, hc]
    · simp only [goSplitChar, hc, if_false]
      rcases hsp : goSplitChar sep rest with _ | ⟨g, gsRest⟩ <;> simp

lemma goSplitChar_of_not_mem (sep : Char) (s : GoStr) (h : sep ∉ s) :
    goSplitChar sep s = [s] := by
  induction s with
  | nil => rfl
  | cons c rest ih =>
    have hc : c ≠ sep := fun he => h (he ▸ List.mem_cons_self c rest)
    have hr : sep ∉ rest := fun hm => h (List.mem_cons_of_mem c hm)
    simp [goSplitChar, hc, ih hr]

lemma goSplitChar_length (sep : Char) (s : GoStr) :
    (goSplitChar sep s).length = s.count sep + 1 := by
  induction s with
  | nil => rfl
  | cons c rest ih =>
    by_cases hc : c = sep
    · subst hc
      simp [goSplitChar, ih, List.count_cons]
    · rcases hsp : goSplitChar sep rest with _ | ⟨g, gsRest⟩
      · exact absurd hsp (goSplitChar_ne_nil sep rest)
      · have hstep : goSplitChar sep (c :: rest) = (c :: g) :: gsRest := by
          simp [goSplitChar, hc, hsp]
        rw [hstep]
        have hlen := ih
        rw [hsp] at hlen
        simp only [List.length_cons] at hlen ⊢
        rw [hlen]
        simp [List.count_cons, hc]

lemma getLastBang_cons (x : GoStr) (l : List GoStr) (h : l ≠ []) :
    (x :: l).getLast! = l.getLast! := by
  cases l with
  | nil => exact absurd rfl h
  | cons y ys => simp [List.getLast!_cons, List.getLast?_cons]

lemma goSplitChar_getLast (sep : Char) (s : GoStr) :
    (goSplitChar sep s).getLast! = afterLastSep sep s := by
  induction s with
  | nil => rfl
  | cons c rest ih =>
    by_cases hc : c = sep
    · subst hc
      rw [afterLastSep_cons_sep]
      have hstep : goSplitChar c (c :: rest) = [] :: goSplitChar c rest := by
        simp [goSplitChar]
      rw [hstep, getLastBang_cons _ _ (goSplitChar_ne_nil c rest), ih]
    · by_cases hmem : sep ∈ rest
      · rw [afterLastSep_cons_mem sep c rest hmem]
        rcases hsp : goSplitChar sep rest with _ | ⟨g, gsRest⟩
        · exact absurd hsp (goSplitChar_ne_nil sep rest)
        · have hstep : goSplitChar sep (c :: rest) = (c :: g) :: gsRest := by
            simp [goSplitChar, hc, hsp]
          rw [hstep]
          cases gsRest with
          | nil =>
            exfalso
            have hlen := goSplitChar_length sep rest
            rw [hsp] at hlen
            simp only [List.length_cons, List.length_nil] at hlen
            have : rest.count sep = 0 := by omega
            exact absurd hmem (by rwa [← List.count_eq_zero])
          | cons t ts =>
            rw [getLastBang_cons _ _ (by simp), ← getLastBang_cons g _ (by simp), ← hsp, ih]
      · have hnotin : sep ∉ c :: rest := by
          intro hmem'
          rcases List.mem_cons.mp hmem' with h' | h'
          · exact hc h'.symm
          · exact hmem h'
        rw [afterLastSep_not_mem sep (c :: rest) hnotin,
          goSplitChar_of_not_mem sep (c :: rest) hnotin]
        rfl

lemma intercalate_cons_head (s : GoStr) (c : Char) (a : GoStr) (L : List GoStr) :
    List.intercalate s ((c :: a) :: L) = c :: List.intercalate s (a :: L) := by
  cases L with
  | nil => simp [List.intercalate]
  | cons b L' =>
    simp [List.intercalate, List.intersperse_cons_cons]

lemma intercalate_cons_of_ne_nil (s : GoStr) (a : GoStr) (L : List GoStr) (h : L ≠ []) :
    List.intercalate s (a :: L) = a ++ s ++ List.intercalate s L := by
  cases L with
  | nil => exact absurd rfl h
  | cons b L' =>
    simp [List.intercalate, List.intersperse_cons_cons, List.append_assoc]

lemma goSplitChar_beforeLast (sep : Char) (s : GoStr) :
    List.intercalate [sep] (goSplitChar sep s).dropLast = beforeLastSep sep s := by
  induction s with
  | nil => rfl
  | cons c rest ih =>
    by_cases hc : c = sep
    · subst hc
      have hstep : goSplitChar c (c :: rest) = [] :: goSplitChar c rest := by
        simp [goSplitChar]
      rw [hstep]
      by_cases hmem : c ∈ rest
      · rcases hsp : goSplitChar c rest with _ | ⟨g, gsRest⟩
        · exact absurd hsp (goSplitChar_ne_nil c rest)
        · cases gsRest with
          | nil =>
            exfalso
            have hlen := goSplitChar_length c rest
            rw [hsp] at hlen
            simp only [List.length_cons, List.length_nil] at hlen
            have : rest.count c = 0 := by omega
            exact absurd hmem (by rwa [← List.count_eq_zero])
          | cons t ts =>
            rw [hsp] at ih
            have hdl : (([] : GoStr) :: g :: t :: ts).dropLast =
                [] :: (g :: t :: ts).dropLast := rfl
            have hdl2 : (g :: t :: ts).dropLast = g :: (t :: ts).dropLast := rfl
            rw [hdl, intercalate_cons_of_ne_nil _ _ _ (by rw [hdl2]; simp), ih,
              beforeLastSep_cons_sep_mem c rest hmem]
            simp
      · rw [goSplitChar_of_not_mem c rest hmem,
          beforeLastSep_cons_sep_not_mem c rest hmem]
        rfl
    · rcases hsp : goSplitChar sep rest with _ | ⟨g, gsRest⟩
      · exact absurd hsp (goSplitChar_ne_nil sep rest)
      · have hstep : goSplitChar sep (c :: rest) = (c :: g) :: gsRest := by
          simp [goSplitChar, hc, hsp]
        rw [hstep]
        cases gsRest with
        | nil =>
          have hmem : sep ∉ rest := by
            have hlen := goSplitChar_length sep rest
            rw [hsp] at hlen
            simp only [List.length_cons, List.length_nil] at hlen
            have : rest.count sep = 0 := by omega
            rwa [← List.count_eq_zero]
          have hnotin : sep ∉ c :: rest := by
            intro hmem'
            rcases List.mem_cons.mp hmem' with h' | h'
            · exact hc h'.symm
            · exact hmem h'
          rw [beforeLastSep_not_mem sep (c :: rest) hnotin]
          rfl
        | cons t ts =>
          have hmem : sep ∈ rest := by
            have hlen := goSplitChar_length sep rest
            rw [hsp] at hlen
            simp only [List.length_cons] at hlen
            have : 0 < rest.count sep := by omega
            exact List.count_pos_iff.mp this
          rw [hsp] at ih
          have hdl : ((c :: g) :: t :: ts).dropLast = (c :: g) :: (t :: ts).dropLast := rfl
          have hdl2 : (g :: t :: ts).dropLast = g :: (t :: ts).dropLast := rfl
          rw [hdl, intercalate_cons_head, beforeLastSep_cons_mem sep c rest hmem, ← ih, hdl2]

end Sqld

namespace Sqld

lemma goContains_single (s : GoStr) (c : Char) : goContains s [c] = true ↔ c ∈ s := by
  induction s with
  | nil => simp [goContains]
  | cons x rest ih =>
    have hpre : ([c].isPrefixOf (x :: rest) = true) ↔ c = x := by
      simp [List.isPrefixOf]
    rw [goContains, Bool.or_eq_true, ih, hpre, List.mem_cons]

/-- C8: for a key containing an underscore and not using bracket syntax,
`parseFieldOperator` treats the key as `field_operator` exactly when the
substring after the last underscore is a known operator token
(case-insensitively, via `isValidOperator`); otherwise the whole key is
the field with the default operator. -/
theorem C8_underscore_operator_extraction (key defaultOp : GoStr)
    (h1 : goContains key (gs ("_")) = true)
    (h2 : ¬ (goContains key (gs ("[")) = true ∧ goEndsWith key (gs ("]")) = true)) :
    parseFieldOperator key defaultOp =
      if isValidOperator (afterLastSep '_' key) = true then
        (beforeLastSep '_' key, MapOperator (afterLastSep '_' key))
      else (key, defaultOp) := by
  have hmem : '_' ∈ key := by
    have hg : gs ("_") = ['_'] := rfl
    rw [hg] at h1
    exact (goContains_single key '_').mp h1
  have hlen : (goSplitChar '_' key).length ≥ 2 := by
    rw [goSplitChar_length]
    have : 0 < key.count '_' := List.count_pos_iff.mpr hmem
    omega
  simp only [parseFieldOperator]
  rw [if_neg h2, if_pos h1, if_pos hlen, goSplitChar_getLast, goSplitChar_beforeLast]

/-- Witness for C8: `age_gt` parses as field `age` with `>`, while
`user_name` keeps the whole key and the default operator. -/
theorem C8_underscore_operator_extraction_witness :
    parseFieldOperator (gs ("age_gt")) OpEq = (gs ("age"), OpGt) ∧
    parseFieldOperator (gs ("user_name")) OpEq = (gs ("user_name"), OpEq) := by
  constructor
  · rw [C8_underscore_operator_extraction (gs ("age_gt")) OpEq (by decide) (by decide)]
    decide
  · rw [C8_underscore_operator_extraction (gs ("user_name")) OpEq (by decide) (by decide)]
    decide

/-! ## Claim C6: the MaxFilters boundary -/

/-- An entry of the query map that survives every skip rule of
`ParseURLValues` and converts without error, so it yields exactly one
filter. -/
def entryYields (cfg : QueryFilterConfig) (e : GoStr × List GoStr) : Bool :=
  e.2.length ≠ 0 ∧ e.2.headI ≠ [] ∧
    (let fo := parseFieldOperator e.1 cfg.DefaultOperator
     let field := (lookupMap cfg.FieldMappings fo.1).getD fo.1
     (¬ (cfg.AllowedFields.length > 0 ∧ ¬ (lookupMap cfg.AllowedFields field).getD false)) ∧
       (convertValue e.2.headI fo.2 cfg.DateLayout).isOk)

/-- The count-exceeded message of `ParseURLValues`. -/
def tooManyFiltersMsg (maxN : Int) : GoStr :=
  gs ("too many filters, maximum allowed: ") ++ itoa maxN

lemma parseAux_ok (cfg : QueryFilterConfig) (entries : List (GoStr × List GoStr))
    (acc : List Filter) (hY : ∀ e ∈ entries, entryYields cfg e = true)
    (hle : (acc.length : Int) + entries.length ≤ cfg.MaxFilters) :
    ∃ fs, parseURLValuesAux cfg entries acc = .ok fs ∧
      fs.length = acc.length + entries.length := by
  induction entries generalizing acc with
  | nil => exact ⟨acc, rfl, by simp⟩
  | cons e rest ih =>
    obtain ⟨key, vals⟩ := e
    have hy := hY (key, vals) (by simp)
    simp only [entryYields, Bool.decide_and, Bool.and_eq_true, decide_eq_true_eq] at hy
    obtain ⟨hv1, hv2, hall, hconv⟩ := hy
    have hlt : ¬ ((acc.length : Int) ≥ cfg.MaxFilters) := by
      simp only [List.length_cons] at hle
      push_neg
      omega
    rw [parseURLValuesAux, if_neg hlt, if_neg (by push_neg; exact ⟨hv1, hv2⟩)]
    rcases hc : convertValue vals.headI
        (parseFieldOperator key cfg.DefaultOperator).2 cfg.DateLayout with e' | v
    · rw [hc] at hconv
      simp [Except.isOk, Except.toBool] at hconv
    · rw [if_neg hall, hc]
      have hle' : ((acc ++
          ([⟨(lookupMap cfg.FieldMappings
              (parseFieldOperator key cfg.DefaultOperator).1).getD
              (parseFieldOperator key cfg.DefaultOperator).1,
            (parseFieldOperator key cfg.DefaultOperator).2, v⟩] : List Filter)).length : Int) +
            rest.length ≤ cfg.MaxFilters := by
        simp only [List.length_append, List.length_cons, List.length_nil,
          List.length_cons] at hle ⊢
        push_cast at hle ⊢
        omega
      obtain ⟨fs, hfs, hlenfs⟩ := ih _ (fun e he => hY e (by simp [he])) hle'
      refine ⟨fs, hfs, ?_⟩
      rw [hlenfs]
      simp only [List.length_append, List.length_cons, List.length_nil]
      omega

lemma parseAux_err (cfg : QueryFilterConfig) (entries : List (GoStr × List GoStr))
    (acc : List Filter) (hY : ∀ e ∈ entries, entryYields cfg e = true)
    (hacc : (acc.length : Int) ≤ cfg.MaxFilters)
    (hgt : (acc.length : Int) + entries.length > cfg.MaxFilters) :
    parseURLValuesAux cfg entries acc = .error (tooManyFiltersMsg cfg.MaxFilters) := by
  induction entries generalizing acc with
  | nil =>
    simp only [List.length_nil] at hgt
    omega
  | cons e rest ih =>
    obtain ⟨key, vals⟩ := e
    by_cases hge : (acc.length : Int) ≥ cfg.MaxFilters
    · rw [parseURLValuesAux, if_pos hge]
      rfl
    · have hy := hY (key, vals) (by simp)
      simp only [entryYields, Bool.decide_and, Bool.and_eq_true, decide_eq_true_eq] at hy
      obtain ⟨hv1, hv2, hall, hconv⟩ := hy
      rw [parseURLValuesAux, if_neg hge, if_neg (by push_neg; exact ⟨hv1, hv2⟩)]
      rcases hc : convertValue vals.headI
          (parseFieldOperator key cfg.DefaultOperator).2 cfg.DateLayout with e' | v
      · rw [hc] at hconv
        simp [Except.isOk, Except.toBool] at hconv
      · rw [if_neg hall, hc]
        apply ih _ (fun e he => hY e (by simp [he]))
        · simp only [List.length_append, List.length_cons, List.length_nil]
          push_cast
          omega
        · simp only [List.length_append, List.length_cons, List.length_nil,
            List.length_cons] at hgt ⊢
          push_cast at hgt ⊢
          omega

/-- C6: with every map entry passing extraction, allow-listing and value
conversion, parsing exactly `MaxFilters` entries succeeds with
`MaxFilters` filters, while `MaxFilters + 1` entries yields the
count-exceeded error and no partial filter list (the error carries no
filters). -/
theorem C6_maxfilters_boundary (cfg : QueryFilterConfig)
    (entries : List (GoStr × List GoStr))
    (hY : ∀ e ∈ entries, entryYields cfg e = true) :
    ((entries.length : Int) = cfg.MaxFilters →
      ∃ fs, ParseURLValues entries cfg = .ok fs ∧ fs.length = entries.length) ∧
    (0 ≤ cfg.MaxFilters → (entries.length : Int) = cfg.MaxFilters + 1 →
      ParseURLValues entries cfg = .error (tooManyFiltersMsg cfg.MaxFilters)) := by
  constructor
  · intro hlen
    obtain ⟨fs, hfs, hl⟩ := parseAux_ok cfg entries [] hY (by simp [hlen])
    exact ⟨fs, hfs, by simpa using hl⟩
  · intro hmax hlen
    apply parseAux_err cfg entries [] hY
    · simpa using hmax
    · simp only [List.length_nil, Nat.cast_zero, zero_add]
      omega

/-- Witness for C6 with `MaxFilters = 2`: two plain entries parse to two
filters, three entries fail with the count-exceeded error. -/
theorem C6_maxfilters_boundary_witness :
    (∃ fs, ParseURLValues [(gs ("a"), [gs ("1")]), (gs ("b"), [gs ("2")])]
        ⟨[], [], OpEq, gs ("2006-01-02"), 2⟩ = .ok fs ∧ fs.length = 2) ∧
    ParseURLValues [(gs ("a"), [gs ("1")]), (gs ("b"), [gs ("2")]), (gs ("c"), [gs ("3")])]
        ⟨[], [], OpEq, gs ("2006-01-02"), 2⟩ = .error (tooManyFiltersMsg 2) := by
  constructor
  · exact (C6_maxfilters_boundary ⟨[], [], OpEq, gs ("2006-01-02"), 2⟩
      [(gs ("a"), [gs ("1")]), (gs ("b"), [gs ("2")])] (by decide)).1 (by decide)
  · exact (C6_maxfilters_boundary ⟨[], [], OpEq, gs ("2006-01-02"), 2⟩
      [(gs ("a"), [gs ("1")]), (gs ("b"), [gs ("2")]), (gs ("c"), [gs ("3")])]
      (by decide)).2 (by decide) (by decide)

end Sqld

namespace Sqld

/-! ## Digit and placeholder-scanner lemmas -/

lemma digitChar_isDigit (m : Nat) (h : m < 10) : (digitChar m).isDigit = true := by
  interval_cases m <;> decide

lemma digitVal_digitChar (m : Nat) (h : m < 10) : digitVal (digitChar m) = m := by
  interval_cases m <;> decide

lemma digitsVal_append_last (xs : GoStr) (d : Char) :
    digitsVal (xs ++ [d]) = 10 * digitsVal xs + digitVal d := by
  simp [digitsVal, List.foldl_append]

lemma natToCharsAux_spec (fuel : Nat) : ∀ n, n ≤ fuel ∨ n < 10 →
    natToCharsAux fuel n ≠ [] ∧ (∀ c ∈ natToCharsAux fuel n, c.isDigit = true) ∧
      digitsVal (natToCharsAux fuel n) = n := by
  induction fuel with
  | zero =>
    intro n hn
    have h10 : n < 10 := by omega
    refine ⟨by simp [natToCharsAux], ?_, ?_⟩
    · intro c hc
      simp only [natToCharsAux, List.mem_singleton] at hc
      exact hc ▸ digitChar_isDigit n h10
    · simp [natToCharsAux, digitsVal, digitVal_digitChar n h10]
  | succ f ih =>
    intro n hn
    by_cases h10 : n < 10
    · refine ⟨by simp [natToCharsAux, h10], ?_, ?_⟩
      · intro c hc
        simp only [natToCharsAux, h10, if_true, List.mem_singleton] at hc
        exact hc ▸ digitChar_isDigit n h10
      · simp [natToCharsAux, h10, digitsVal, digitVal_digitChar n h10]
    · have hle : n ≤ f + 1 := by omega
      have hrec : n / 10 ≤ f ∨ n / 10 < 10 := by
        left
        omega
      obtain ⟨hne, hdig, hval⟩ := ih (n / 10) hrec
      have hmod : n % 10 < 10 := Nat.mod_lt n (by omega)
      refine ⟨?_, ?_, ?_⟩
      · simp [natToCharsAux, h10]
      · intro c hc
        simp only [natToCharsAux, h10, if_false, List.mem_append, List.mem_singleton] at hc
        rcases hc with hc | hc
        · exact hdig c hc
        · exact hc ▸ digitChar_isDigit _ hmod
      · simp only [natToCharsAux, h10, if_false]
        rw [digitsVal_append_last, hval, digitVal_digitChar _ hmod]
        omega

lemma natToChars_ne_nil (n : Nat) : natToChars n ≠ [] :=
  (natToCharsAux_spec n n (Or.inl le_rfl)).1

lemma natToChars_digits (n : Nat) : ∀ c ∈ natToChars n, c.isDigit = true :=
  (natToCharsAux_spec n n (Or.inl le_rfl)).2.1

lemma digitsVal_natToChars (n : Nat) : digitsVal (natToChars n) = n :=
  (natToCharsAux_spec n n (Or.inl le_rfl)).2.2

/-- Emissions of the placeholder scanner without the final flush. -/
def phOut (st : PhSt) : GoStr → List Nat
  | [] => []
  | c :: rest => (phStep st c).2 ++ phOut (phStep st c).1 rest

/-- Final state of the placeholder scanner. -/
def phEnd (st : PhSt) : GoStr → PhSt
  | [] => st
  | c :: rest => phEnd (phStep st c).1 rest

lemma phScan_eq_out_flush (s : GoStr) : ∀ st, phScan st s = phOut st s ++ phFlush (phEnd st s) := by
  induction s with
  | nil => intro st; rfl
  | cons c rest ih =>
    intro st
    simp only [phScan, phOut, phEnd, List.append_assoc]
    rw [ih]

lemma phOut_append (s t : GoStr) : ∀ st,
    phOut st (s ++ t) = phOut st s ++ phOut (phEnd st s) t := by
  induction s with
  | nil => intro st; rfl
  | cons c rest ih =>
    intro st
    simp only [List.cons_append, phOut, phEnd, List.append_assoc, List.append_eq]
    rw [ih]

lemma phEnd_append (s t : GoStr) : ∀ st, phEnd st (s ++ t) = phEnd (phEnd st s) t := by
  induction s with
  | nil => intro st; rfl
  | cons c rest ih =>
    intro st
    simp only [List.cons_append, phEnd, List.append_eq]
    rw [ih]

lemma phEnd_norm_of_no_dollar (s : GoStr) (h : '$' ∉ s) : phEnd .norm s = .norm := by
  induction s with
  | nil => rfl
  | cons c rest ih =>
    have hc : c ≠ '$' := fun he => h (he ▸ List.mem_cons_self c rest)
    have hr : '$' ∉ rest := fun hm => h (List.mem_cons_of_mem c hm)
    simp only [phEnd, phStep, hc, if_false]
    exact ih hr

lemma phOut_norm_of_no_dollar (s : GoStr) (h : '$' ∉ s) : phOut .norm s = [] := by
  induction s with
  | nil => rfl
  | cons c rest ih =>
    have hc : c ≠ '$' := fun he => h (he ▸ List.mem_cons_self c rest)
    have hr : '$' ∉ rest := fun hm => h (List.mem_cons_of_mem c hm)
    simp only [phOut, phStep, hc, if_false]
    exact ih hr

/-- A string whose first character (if any) is not a digit. -/
def headNotDigit (t : GoStr) : Prop :=
  ∀ c, t.head? = some c → c.isDigit = false

lemma phScan_flush_norm (t : GoStr) (ht : headNotDigit t) (st : PhSt) :
    phScan st t = phFlush st ++ phScan .norm t := by
  cases t with
  | nil => cases st <;> rfl
  | cons c rest =>
    have hc : c.isDigit = false := ht c rfl
    cases st with
    | norm => rfl
    | dollar =>
      by_cases hcd : c = '$' <;>
        simp [phScan, phStep, phFlush, hc, hcd]
    | num acc =>
      by_cases hcd : c = '$' <;>
        simp [phScan, phStep, phFlush, hc, hcd]

lemma phNums_append_notdigit (s t : GoStr) (ht : headNotDigit t) :
    phNums (s ++ t) = phNums s ++ phNums t := by
  unfold phNums
  rw [phScan_eq_out_flush (s ++ t) .norm, phOut_append, phEnd_append, List.append_assoc,
    ← phScan_eq_out_flush t (phEnd .norm s), phScan_flush_norm t ht (phEnd .norm s),
    ← List.append_assoc, ← phScan_eq_out_flush s .norm]

lemma phNums_no_dollar (s t : GoStr) (h : '$' ∉ s) : phNums (s ++ t) = phNums t := by
  unfold phNums
  rw [phScan_eq_out_flush (s ++ t) .norm, phOut_append, phEnd_append,
    phEnd_norm_of_no_dollar s h, phOut_norm_of_no_dollar s h, List.nil_append,
    ← phScan_eq_out_flush]

lemma phNums_nil : phNums [] = [] := rfl

lemma phNums_of_no_dollar (s : GoStr) (h : '$' ∉ s) : phNums s = [] := by
  have := phNums_no_dollar s [] h
  simpa using this

lemma phScan_digits (ds : GoStr) (hds : ∀ c ∈ ds, c.isDigit = true) : ∀ (t : GoStr) (a : Nat),
    phScan (.num a) (ds ++ t) = phScan (.num (ds.foldl (fun x c => 10 * x + digitVal c) a)) t := by
  induction ds with
  | nil => intro t a; rfl
  | cons d ds' ih =>
    intro t a
    have hd : d.isDigit = true := hds d (List.mem_cons_self d ds')
    have hne : ¬ d = '$' := by
      intro he
      rw [he] at hd
      cases hd
    simp only [List.cons_append, phScan, phStep, hd, if_true, List.nil_append, List.append_eq]
    rw [ih (fun c hc => hds c (List.mem_cons_of_mem d hc))]
    rfl

lemma phNums_placeholder (n : Nat) (t : GoStr) (ht : headNotDigit t) :
    phNums ('$' :: (natToChars n ++ t)) = n :: phNums t := by
  unfold phNums
  have h1 : phScan .norm ('$' :: (natToChars n ++ t)) = phScan .dollar (natToChars n ++ t) := by
    simp [phScan, phStep]
  rw [h1]
  rcases hnc : natToChars n with _ | ⟨d, ds⟩
  · exact absurd hnc (natToChars_ne_nil n)
  · have hdig := natToChars_digits n
    rw [hnc] at hdig
    have hd : d.isDigit = true := hdig d (List.mem_cons_self d ds)
    have hnd : ¬ d = '$' := by
      intro he; rw [he] at hd; cases hd
    simp only [List.cons_append, phScan, phStep, hd, if_true, List.nil_append, List.append_eq]
    rw [phScan_digits ds (fun c hc => hdig c (List.mem_cons_of_mem d hc)) t (digitVal d)]
    have hval : ds.foldl (fun x c => 10 * x + digitVal c) (digitVal d) = n := by
      have := digitsVal_natToChars n
      rw [hnc] at this
      simpa [digitsVal] using this
    rw [hval, phScan_flush_norm t ht]
    rfl

end Sqld

namespace Sqld

/-! ## Claims about the annotation processor: C4, C2, C10 -/

lemma goReplace1_not_contains (s old new? : GoStr) (h : goContains s old = false) :
    goReplace1 s old new? = s := by
  induction s with
  | nil =>
    simp only [goContains] at h
    simp [goReplace1, h]
  | cons c rest ih =>
    simp only [goContains, Bool.or_eq_false_iff] at h
    obtain ⟨h1, h2⟩ := h
    simp only [goReplace1]
    rw [if_neg (by simp [h1]), ih h2]

lemma replace_if_contains (s m r : GoStr) :
    (if goContains s m = true then goReplace1 s m r else s) = goReplace1 s m r := by
  by_cases hc : goContains s m = true
  · rw [if_pos hc]
  · rw [if_neg hc, goReplace1_not_contains s m r (by simpa using hc)]

/-- The input template with the first occurrence of each of the four
markers removed, in the order the processor strips them. -/
def stripMarkers (tpl : GoStr) : GoStr :=
  goReplace1 (goReplace1 (goReplace1 (goReplace1 tpl whereMarker []) cursorMarker [])
    orderbyMarker []) limitMarker []

/-- C4: with no conditions, nil cursor, an absent or empty sort set and
limit 0, `ProcessQuery` returns the template with only the marker text
stripped, and the parameter list is exactly the pre-existing one. -/
theorem C4_absent_dynamics_strip_markers (d : Dialect) (tpl : GoStr) (ps : List GoVal)
    (w : Option WhereBuilder) (ob : Option OrderByBuilder)
    (hw : ∀ wb, w = some wb → wb.HasConditions = false)
    (hob : ∀ o, ob = some o → o.HasFields = false) :
    ProcessQuery d tpl w none ob 0 ps = (stripMarkers tpl, ps) := by
  have hst1 : apWherePhase (apCursorPhase tpl none ps) w = ⟨[], ps, ps.length⟩ := by
    have h0 : apCursorPhase tpl none ps = ⟨[], ps, ps.length⟩ := rfl
    rw [h0]
    cases w with
    | none => rfl
    | some wb =>
      have hwb := hw wb rfl
      simp only [apWherePhase]
      rw [if_neg (by simp [hwb])]
  have hsub : apSubstWhere tpl ([] : List GoStr) = goReplace1 tpl whereMarker [] := by
    simp [apSubstWhere]
  have hobstep : ∀ s : GoStr, processOrderByStep s ob = goReplace1 s orderbyMarker [] := by
    intro s
    cases ob with
    | none =>
      simp only [processOrderByStep]
      rw [replace_if_contains]
    | some o =>
      have hoo := hob o rfl
      simp only [processOrderByStep, hoo, Bool.false_eq_true, if_false]
      rw [replace_if_contains]
  have hlim : ∀ s : GoStr, apLimitPhase d s 0 ps.length ps =
      (goReplace1 s limitMarker [], ps) := by
    intro s
    unfold apLimitPhase
    rw [if_neg (by simp)]
  show apLimitPhase d (processOrderByStep (goReplace1 (apSubstWhere tpl
      (apWherePhase (apCursorPhase tpl none ps) w).whereConditions) cursorMarker [])
      ob) 0 (apWherePhase (apCursorPhase tpl none ps) w).paramIndex
      (apWherePhase (apCursorPhase tpl none ps) w).params = (stripMarkers tpl, ps)
  rw [hst1]
  dsimp only
  rw [hsub, hobstep, hlim]
  rfl

/-- Witness for C4 at a template holding all four markers once. -/
theorem C4_absent_dynamics_strip_markers_witness :
    ProcessQuery .postgres
      (gs ("SELECT * FROM t WHERE a=1 /* sqld:cursor */ /* sqld:where */ ORDER BY b /* sqld:orderby */ /* sqld:limit */"))
      none none none 0 [.vint 5] =
      (gs ("SELECT * FROM t WHERE a=1   ORDER BY b  "), [.vint 5]) := by
  rw [C4_absent_dynamics_strip_markers .postgres _ [.vint 5] none none
    (by intro wb h; cases h) (by intro o h; cases h)]
  decide

lemma headNotDigit_of_head_eq (t : GoStr) (c : Char) (h : t.head? = some c)
    (hd : c.isDigit = false) : headNotDigit t := by
  intro c' hc'
  rw [h] at hc'
  injection hc' with hh
  rw [← hh]
  exact hd

lemma phNums_renderPh (k : Nat) (t : GoStr) (ht : headNotDigit t) :
    phNums (renderPh k ++ t) = k :: phNums t := by
  rw [renderPh, List.cons_append, phNums_placeholder k t ht]

/-- C2 (amended): when the template contains the cursor marker and a
cursor is supplied, the synthesised keyset condition uses one placeholder
index for both ordering-value comparisons (the same `$N` twice — reused
by placeholder index, not two distinct slots) plus one for the id,
appends the ordering value once and the id once, and advances the running
counter by exactly 2. -/
theorem C2_cursor_condition_reuses_placeholder (tpl : GoStr) (c : Cursor) (ps : List GoVal)
    (h : goContains tpl cursorMarker = true) :
    apCursorPhase tpl (some c) ps =
      ⟨[cursorCondStr ps.length], ps ++ [c.CreatedAt, .vint c.ID], ps.length + 2⟩ ∧
    phNums (cursorCondStr ps.length) =
      [ps.length + 1, ps.length + 1, ps.length + 2] := by
  constructor
  · simp [apCursorPhase, h]
  · set n := ps.length with hn
    have hL3 : phNums (renderPh (n + 2) ++ gs ("))")) = [n + 2] := by
      rw [phNums_renderPh (n + 2) (gs ("))"))
          (headNotDigit_of_head_eq (gs ("))")) ')' rfl (by decide)),
        phNums_of_no_dollar (gs ("))")) (by decide)]
    have hL2 : phNums (renderPh (n + 1) ++ (gs (" AND id < ") ++
        (renderPh (n + 2) ++ gs ("))")))) = [n + 1, n + 2] := by
      rw [phNums_renderPh (n + 1)
          (gs (" AND id < ") ++ (renderPh (n + 2) ++ gs ("))")))
          (headNotDigit_of_head_eq _ ' ' rfl (by decide)),
        phNums_no_dollar (gs (" AND id < ")) _ (by decide), hL3]
    have hL1 : phNums (renderPh (n + 1) ++ (gs (" OR (created_at = ") ++
        (renderPh (n + 1) ++ (gs (" AND id < ") ++
        (renderPh (n + 2) ++ gs ("))")))))) = [n + 1, n + 1, n + 2] := by
      rw [phNums_renderPh (n + 1)
          (gs (" OR (created_at = ") ++ (renderPh (n + 1) ++ (gs (" AND id < ") ++
            (renderPh (n + 2) ++ gs ("))")))))
          (headNotDigit_of_head_eq _ ' ' rfl (by decide)),
        phNums_no_dollar (gs (" OR (created_at = ")) _ (by decide), hL2]
    calc phNums (cursorCondStr n)
        = phNums (gs ("(created_at < ") ++ (renderPh (n + 1) ++
            (gs (" OR (created_at = ") ++ (renderPh (n + 1) ++
            (gs (" AND id < ") ++ (renderPh (n + 2) ++ gs ("))"))))))) := by
          rw [cursorCondStr]
          simp only [List.append_assoc]
      _ = [n + 1, n + 1, n + 2] := by
          rw [phNums_no_dollar (gs ("(created_at < ")) _ (by decide), hL1]

/-- Witness for C2's amended theorem at a concrete template and cursor. -/
theorem C2_cursor_condition_reuses_placeholder_witness :
    apCursorPhase (gs ("X /* sqld:cursor */")) (some ⟨.vstr (gs ("2024")), 7⟩) [.vint 9] =
      ⟨[cursorCondStr 1], [.vint 9, .vstr (gs ("2024")), .vint 7], 3⟩ ∧
    phNums (cursorCondStr 1) = [2, 2, 3] := by
  have h := C2_cursor_condition_reuses_placeholder (gs ("X /* sqld:cursor */"))
    ⟨.vstr (gs ("2024")), 7⟩ [.vint 9] (by decide)
  exact h

/-- Counterexample to C2 as stated: on a concrete template the two
ordering-value slots carry the same placeholder index `$1` (so they are
not distinct), and only two values — not the ordering value twice plus
the id — are appended. -/
theorem C2_counterexample_distinct_slots :
    ProcessQuery .postgres (gs ("SELECT * FROM t WHERE x=1 /* sqld:cursor */ /* sqld:where */"))
        none (some ⟨.vstr (gs ("2024")), 7⟩) none 0 [] =
      (gs ("SELECT * FROM t WHERE x=1   AND (created_at < $1 OR (created_at = $1 AND id < $2))"),
        [.vstr (gs ("2024")), .vint 7]) ∧
    (ProcessQuery .postgres (gs ("SELECT * FROM t WHERE x=1 /* sqld:cursor */ /* sqld:where */"))
        none (some ⟨.vstr (gs ("2024")), 7⟩) none 0 []).2 ≠
      [.vstr (gs ("2024")), .vstr (gs ("2024")), .vint 7] := by
  decide

end Sqld

namespace Sqld

/-- The SQL text of `ProcessQuery` just before the ORDER BY block runs:
the template after WHERE-marker substitution and cursor-marker removal. -/
def preOrderBySQL (tpl : GoStr) (w : Option WhereBuilder) (c : Option Cursor)
    (ps : List GoVal) : GoStr :=
  goReplace1 (apSubstWhere tpl (apWherePhase (apCursorPhase tpl c ps) w).whereConditions)
    cursorMarker []

/-- C10: if a non-empty sort set is supplied but the SQL reaching the
ORDER BY block contains the order-by marker without a preceding
`ORDER BY <fields>` span (the regexp finds no match), the marker is left
in place and the dynamic sort clause is not inserted anywhere: the step
returns its input unchanged, and (when no limit marker is present) the
whole `ProcessQuery` output is that unchanged SQL with unchanged
parameters, marker still present. -/
theorem C10_unmatched_orderby_dropped (d : Dialect) (tpl : GoStr) (w : Option WhereBuilder)
    (c : Option Cursor) (ob : OrderByBuilder) (limit : Int) (ps : List GoVal)
    (hfields : ob.HasFields = true)
    (hcont : goContains (preOrderBySQL tpl w c ps) orderbyMarker = true)
    (hnomatch : obHasMatch (preOrderBySQL tpl w c ps) = false)
    (hnolimit : goContains (preOrderBySQL tpl w c ps) limitMarker = false) :
    processOrderByStep (preOrderBySQL tpl w c ps) (some ob) = preOrderBySQL tpl w c ps ∧
    ProcessQuery d tpl w c (some ob) limit ps =
      (preOrderBySQL tpl w c ps, (apWherePhase (apCursorPhase tpl c ps) w).params) ∧
    goContains (ProcessQuery d tpl w c (some ob) limit ps).1 orderbyMarker = true := by
  have hstep : processOrderByStep (preOrderBySQL tpl w c ps) (some ob) =
      preOrderBySQL tpl w c ps := by
    unfold processOrderByStep
    rw [if_pos hcont]
    simp only [hfields, if_true]
    rw [if_neg (by simp [hnomatch])]
  have hmain : ProcessQuery d tpl w c (some ob) limit ps =
      (preOrderBySQL tpl w c ps, (apWherePhase (apCursorPhase tpl c ps) w).params) := by
    show apLimitPhase d (processOrderByStep (preOrderBySQL tpl w c ps) (some ob)) limit
        (apWherePhase (apCursorPhase tpl c ps) w).paramIndex
        (apWherePhase (apCursorPhase tpl c ps) w).params = _
    rw [hstep]
    unfold apLimitPhase
    rw [if_neg (by simp [hnolimit]), goReplace1_not_contains _ _ _ hnolimit]
  exact ⟨hstep, hmain, by rw [hmain]; exact hcont⟩

/-- Witness for C10: a template with the order-by marker but no
`ORDER BY` span keeps the marker and drops the dynamic sort. -/
theorem C10_unmatched_orderby_dropped_witness :
    (ProcessQuery .postgres (gs ("SELECT * FROM users /* sqld:orderby */")) none none
      (some (NewOrderByBuilder.Add (gs ("name")) (gs ("ASC")))) 10 []).1 =
      gs ("SELECT * FROM users /* sqld:orderby */") := by
  have h := C10_unmatched_orderby_dropped .postgres
    (gs ("SELECT * FROM users /* sqld:orderby */")) none none
    (NewOrderByBuilder.Add (gs ("name")) (gs ("ASC"))) 10 []
    (by decide) (by decide) (by decide) (by decide)
  rw [h.2.1]
  decide

/-- Counterexample to C3 as stated: on the spec's end-to-end scenario the
code does not return the claimed byte-exact SQL — marker substitution
leaves extra spaces. -/
theorem C3_counterexample_exact_sql :
    ProcessQuery .postgres
        (gs ("SELECT * FROM users WHERE active=true /* sqld:where */ ORDER BY created_at DESC /* sqld:orderby */ /* sqld:limit */"))
        (some ((NewWhereBuilder .postgres).GreaterThan (gs ("age")) (.vint 18))) none
        (some (NewOrderByBuilder.Add (gs ("name")) (gs ("ASC")))) 10 [] ≠
      (gs ("SELECT * FROM users WHERE active=true AND age > $1 ORDER BY name ASC LIMIT $2"),
        [.vint 18, .vint 10]) := by
  decide

/-- C3 (amended): the spec's end-to-end scenario, with the SQL the code
actually produces — identical to the claimed SQL except for the residual
spaces around the substituted markers — and the parameter list [18, 10]. -/
theorem C3_end_to_end_scenario :
    ProcessQuery .postgres
        (gs ("SELECT * FROM users WHERE active=true /* sqld:where */ ORDER BY created_at DESC /* sqld:orderby */ /* sqld:limit */"))
        (some ((NewWhereBuilder .postgres).GreaterThan (gs ("age")) (.vint 18))) none
        (some (NewOrderByBuilder.Add (gs ("name")) (gs ("ASC")))) 10 [] =
      (gs ("SELECT * FROM users WHERE active=true  AND age > $1 ORDER BY name ASC   LIMIT $2"),
        [.vint 18, .vint 10]) := by
  decide

end Sqld

namespace Sqld

/-! ## Claim C1: placeholder monotonicity

Condition-adding calls are defunctionalised into `WOp` so the claim can
quantify over every finite sequence of calls, including nested OR-groups
(the function passed to `Or` is modelled as the list of calls it makes on
the sub-builder). -/

/-- One condition-adding call on a `WhereBuilder`. -/
inductive WOp
  | equal (column : GoStr) (value : GoVal)
  | notEqual (column : GoStr) (value : GoVal)
  | greaterThan (column : GoStr) (value : GoVal)
  | lessThan (column : GoStr) (value : GoVal)
  | like (column : GoStr) (value : GoStr)
  | ilike (column : GoStr) (value : GoStr)
  | inList (column : GoStr) (values : List GoVal)
  | between (column : GoStr) (a b : GoVal)
  | isNull (column : GoStr)
  | isNotNull (column : GoStr)
  | raw (sql : GoStr) (ps : List GoVal)
  | orGroup (ops : List WOp)

mutual

/-- Apply one call to the builder (dispatch to the builder methods). -/
def applyOp (w : WhereBuilder) : WOp → WhereBuilder
  | .equal c v => w.Equal c v
  | .notEqual c v => w.NotEqual c v
  | .greaterThan c v => w.GreaterThan c v
  | .lessThan c v => w.LessThan c v
  | .like c v => w.Like c v
  | .ilike c v => w.ILike c v
  | .inList c vs => w.In c vs
  | .between c a b => w.Between c a b
  | .isNull c => w.IsNull c
  | .isNotNull c => w.IsNotNull c
  | .raw sql ps => w.Raw sql ps
  | .orGroup ops => w.Or (fun sub => applyOps sub ops)

/-- Apply a sequence of calls left to right. -/
def applyOps (w : WhereBuilder) : List WOp → WhereBuilder
  | [] => w
  | op :: rest => applyOps (applyOp w op) rest

end

/-- No `?` immediately followed by a digit (otherwise a substituted `$N`
would run into the following digit and read as a different number). -/
def noQDigit : GoStr → Bool
  | [] => true
  | [_] => true
  | c :: d :: rest => (if c = '?' then !d.isDigit else true) && noQDigit (d :: rest)

mutual

/-- Sanity of one call for the placeholder claim: column names carry no
`$`, and a raw fragment carries no `$`, exactly one `?` per supplied
parameter, and no `?` running into a digit. -/
def WOp.okb : WOp → Bool
  | .equal c _ => !(c.contains '$')
  | .notEqual c _ => !(c.contains '$')
  | .greaterThan c _ => !(c.contains '$')
  | .lessThan c _ => !(c.contains '$')
  | .like c _ => !(c.contains '$')
  | .ilike c _ => !(c.contains '$')
  | .inList c _ => !(c.contains '$')
  | .between c _ _ => !(c.contains '$')
  | .isNull c => !(c.contains '$')
  | .isNotNull c => !(c.contains '$')
  | .raw sql ps => !(sql.contains '$') && (sql.count '?' == ps.length) && noQDigit sql
  | .orGroup ops => opsOkb ops

/-- Sanity of a call sequence. -/
def opsOkb : List WOp → Bool
  | [] => true
  | op :: rest => op.okb && opsOkb rest

end

/-- Total parameter count of a condition list. -/
def sumPC (conds : List Condition) : Nat := (conds.map (·.ParamCount)).sum

/-- The conditions' placeholders, in order, are exactly the consecutive
run starting after `start`: condition `i` carries the next
`ParamCount i` numbers. -/
def condsPh : Nat → List Condition → Prop
  | _, [] => True
  | start, c :: rest =>
    phNums c.SQL = List.range' (start + 1) c.ParamCount ∧
      condsPh (start + c.ParamCount) rest

/-- The invariant of a Postgres builder whose numbering started at
`s`: the counter is `s` plus the number of parameters, the parameters
match the conditions' counts, and the conditions' placeholders form the
consecutive run `s+1, s+2, ...`. -/
def WInv (s : Nat) (w : WhereBuilder) : Prop :=
  w.dialect = .postgres ∧
  w.paramIndex = s + w.params.length ∧
  w.params.length = sumPC w.conditions ∧
  condsPh s w.conditions

end Sqld

namespace Sqld

lemma phNums_renderPh_nil (k : Nat) : phNums (renderPh k) = [k] := by
  have h : renderPh k = renderPh k ++ [] := by simp
  rw [h, phNums_renderPh k [] (by intro c hc; cases hc)]
  rfl

lemma phNums_cons_skip (c : Char) (t : GoStr) (hc : c ≠ '$') :
    phNums (c :: t) = phNums t := by
  simp [phNums, phScan, phStep, hc]

lemma intercalate_append_last (sep : GoStr) (l : List GoStr) (x : GoStr) (h : l ≠ []) :
    List.intercalate sep (l ++ [x]) = List.intercalate sep l ++ (sep ++ x) := by
  induction l with
  | nil => exact absurd rfl h
  | cons a l' ih =>
    cases l' with
    | nil =>
      rw [show ([a] ++ [x] : List GoStr) = a :: [x] from rfl,
        intercalate_cons_of_ne_nil sep a [x] (by simp)]
      simp [List.intercalate, List.append_assoc]
    | cons b l'' =>
      rw [List.cons_append,
        intercalate_cons_of_ne_nil sep a ((b :: l'') ++ [x]) (by simp),
        intercalate_cons_of_ne_nil sep a (b :: l'') (by simp), ih (by simp)]
      simp [List.append_assoc]

lemma sumPC_append (l : List Condition) (c : Condition) :
    sumPC (l ++ [c]) = sumPC l + c.ParamCount := by
  simp [sumPC]

lemma condsPh_append (conds : List Condition) (c : Condition) : ∀ start,
    condsPh start conds →
    phNums c.SQL = List.range' (start + sumPC conds + 1) c.ParamCount →
    condsPh start (conds ++ [c]) := by
  induction conds with
  | nil =>
    intro start _ hc
    refine ⟨?_, trivial⟩
    simpa [sumPC] using hc
  | cons d rest ih =>
    intro start hconds hc
    obtain ⟨hd, hrest⟩ := hconds
    refine ⟨hd, ih (start + d.ParamCount) hrest ?_⟩
    rw [hc]
    congr 1
    simp [sumPC]
    omega

lemma joinPh (sep : GoStr) (hsep : '$' ∉ sep)
    (hhd : ∀ X : GoStr, headNotDigit (sep ++ X)) :
    ∀ (conds : List Condition) (start : Nat), condsPh start conds →
    phNums (List.intercalate sep (conds.map (·.SQL))) =
      List.range' (start + 1) (sumPC conds) := by
  intro conds
  induction conds with
  | nil =>
    intro start _
    simp [sumPC, List.intercalate, phNums_nil]
  | cons c rest ih =>
    intro start hph
    obtain ⟨hc, hrest⟩ := hph
    cases rest with
    | nil =>
      have : List.intercalate sep [c.SQL] = c.SQL := by
        simp [List.intercalate]
      rw [List.map_cons, List.map_nil, this, hc]
      simp [sumPC]
    | cons c2 rest2 =>
      rw [List.map_cons,
        intercalate_cons_of_ne_nil sep c.SQL ((c2 :: rest2).map (·.SQL)) (by simp),
        List.append_assoc,
        phNums_append_notdigit c.SQL _ (hhd _),
        phNums_no_dollar sep _ hsep, hc,
        ih (start + c.ParamCount) hrest]
      have hs : sumPC (c :: c2 :: rest2) = sumPC (c2 :: rest2) + c.ParamCount := by
        simp only [sumPC, List.map_cons, List.sum_cons]
        omega
      have harr : start + c.ParamCount + 1 = start + 1 + 1 * c.ParamCount := by omega
      rw [hs, harr]
      exact List.range'_append (start + 1) c.ParamCount (sumPC (c2 :: rest2)) 1

lemma placeholderN_postgres (n : Nat) : ∀ w : WhereBuilder, w.dialect = .postgres →
    w.placeholderN n = ((List.range' (w.paramIndex + 1) n).map renderPh,
      { w with paramIndex := w.paramIndex + n }) := by
  induction n with
  | zero => intro w _; simp [WhereBuilder.placeholderN]
  | succ m ih =>
    intro w hd
    simp only [WhereBuilder.placeholderN, WhereBuilder.placeholderStep, hd]
    have hrec := ih { conditions := w.conditions, params := w.params, paramIndex := w.paramIndex + 1, dialect := Dialect.postgres } rfl
    rw [hrec]
    simp only [List.range'_succ, List.map_cons, Prod.mk.injEq, WhereBuilder.mk.injEq,
      renderPh]
    exact ⟨trivial, trivial, trivial, by omega, trivial⟩

lemma phNums_ph_list : ∀ l : List Nat,
    phNums (List.intercalate (gs (", ")) (l.map renderPh)) = l := by
  intro l
  induction l with
  | nil => rfl
  | cons a l' ih =>
    cases l' with
    | nil =>
      have : List.intercalate (gs (", ")) [renderPh a] = renderPh a := by
        simp [List.intercalate]
      rw [List.map_cons, List.map_nil, this, phNums_renderPh_nil]
    | cons b l'' =>
      rw [List.map_cons,
        intercalate_cons_of_ne_nil (gs (", ")) (renderPh a) ((b :: l'').map renderPh)
          (by simp),
        List.append_assoc,
        phNums_renderPh a
          (gs (", ") ++ List.intercalate (gs (", ")) ((b :: l'').map renderPh))
          (headNotDigit_of_head_eq
            (gs (", ") ++ List.intercalate (gs (", ")) ((b :: l'').map renderPh))
            ',' rfl (by decide)),
        phNums_no_dollar (gs (", ")) _ (by decide), ih]

end Sqld

namespace Sqld

/-- Left-to-right substitution of each `?` by successive `$N` (the net
effect of the Postgres loop in `processRawSQL`). -/
def substQs : GoStr → Nat → GoStr
  | [], _ => []
  | c :: rest, idx =>
    if c = '?' then renderPh (idx + 1) ++ substQs rest (idx + 1)
    else c :: substQs rest idx

lemma q_not_in_renderPh (n : Nat) : '?' ∉ renderPh n := by
  intro h
  rw [renderPh] at h
  rcases List.mem_cons.mp h with h1 | h2
  · exact absurd h1 (by decide)
  · exact absurd (natToChars_digits n '?' h2) (by decide)

lemma substQs_no_q : ∀ (s : GoStr), '?' ∉ s → ∀ idx, substQs s idx = s := by
  intro s
  induction s with
  | nil => intro _ _; rfl
  | cons c rest ih =>
    intro h idx
    have hc : c ≠ '?' := fun he => h (he ▸ List.mem_cons_self c rest)
    have hr : '?' ∉ rest := fun hm => h (List.mem_cons_of_mem c hm)
    simp [substQs, hc, ih hr idx]

lemma substQs_append_noq : ∀ (p : GoStr), '?' ∉ p → ∀ (t : GoStr) (idx : Nat),
    substQs (p ++ t) idx = p ++ substQs t idx := by
  intro p
  induction p with
  | nil => intro _ t idx; rfl
  | cons c rest ih =>
    intro h t idx
    have hc : c ≠ '?' := fun he => h (he ▸ List.mem_cons_self c rest)
    have hr : '?' ∉ rest := fun hm => h (List.mem_cons_of_mem c hm)
    simp [substQs, hc, ih hr t idx]

lemma goReplace1_append_noq : ∀ (p : GoStr), '?' ∉ p → ∀ (t r : GoStr),
    goReplace1 (p ++ t) ['?'] r = p ++ goReplace1 t ['?'] r := by
  intro p
  induction p with
  | nil => intro _ t r; rfl
  | cons c rest ih =>
    intro h t r
    have hc : c ≠ '?' := fun he => h (he ▸ List.mem_cons_self c rest)
    have hr : '?' ∉ rest := fun hm => h (List.mem_cons_of_mem c hm)
    have hpre : (['?'] : GoStr).isPrefixOf (c :: (rest ++ t)) = false := by
      simp [List.isPrefixOf, Ne.symm hc]
    simp only [List.cons_append, List.append_eq, goReplace1, hpre, Bool.false_eq_true,
      if_false]
    rw [ih hr t r]

lemma goReplace1_q_head (rest r : GoStr) :
    goReplace1 ('?' :: rest) ['?'] r = r ++ rest := by
  simp [goReplace1, List.isPrefixOf]

lemma first_q_split : ∀ (s : GoStr), '?' ∈ s →
    ∃ a b, s = a ++ '?' :: b ∧ '?' ∉ a := by
  intro s
  induction s with
  | nil => intro h; cases h
  | cons c rest ih =>
    intro h
    by_cases hc : c = '?'
    · exact ⟨[], rest, by rw [hc]; rfl, by simp⟩
    · have hr : '?' ∈ rest := by
        rcases List.mem_cons.mp h with h1 | h2
        · exact absurd h1.symm hc
        · exact h2
      obtain ⟨a, b, hab, hna⟩ := ih hr
      refine ⟨c :: a, b, by rw [List.cons_append, hab], ?_⟩
      intro hm
      rcases List.mem_cons.mp hm with h1 | h2
      · exact hc h1.symm
      · exact hna h2

lemma noQDigit_tail (c : Char) (rest : GoStr) (h : noQDigit (c :: rest) = true) :
    noQDigit rest = true := by
  cases rest with
  | nil => rfl
  | cons d r2 =>
    simp only [noQDigit, Bool.and_eq_true] at h
    exact h.2

lemma noQDigit_head_q (d : Char) (r2 : GoStr) (h : noQDigit ('?' :: d :: r2) = true) :
    d.isDigit = false := by
  simp only [noQDigit, Bool.and_eq_true] at h
  simpa using h.1

lemma head_substQs (c : Char) (rest : GoStr) (idx : Nat) :
    (substQs (c :: rest) idx).head? = some (if c = '?' then '$' else c) := by
  by_cases hc : c = '?'
  · simp [substQs, hc, renderPh]
  · simp [substQs, hc]

end Sqld

namespace Sqld

lemma processRawSQLPG_substQs : ∀ (k : Nat) (sql : GoStr) (idx : Nat),
    sql.count '?' = k →
    processRawSQLPG sql k idx = (substQs sql idx, idx + k) := by
  intro k
  induction k with
  | zero =>
    intro sql idx h
    have hq : '?' ∉ sql := by
      intro hm
      have := List.count_pos_iff.mpr hm
      omega
    rw [substQs_no_q sql hq idx]
    simp [processRawSQLPG]
  | succ m ih =>
    intro sql idx h
    have hmem : '?' ∈ sql := by
      by_contra hm
      have : sql.count '?' = 0 := List.count_eq_zero.mpr hm
      omega
    obtain ⟨a, b, hab, hna⟩ := first_q_split sql hmem
    subst hab
    have hca : a.count '?' = 0 := List.count_eq_zero.mpr hna
    have hcb : b.count '?' = m := by
      rw [List.count_append, List.count_cons] at h
      simp [hca] at h
      omega
    simp only [processRawSQLPG]
    rw [goReplace1_append_noq a hna ('?' :: b) ('$' :: natToChars (idx + 1)),
      goReplace1_q_head]
    have hrp : ('$' :: natToChars (idx + 1)) = renderPh (idx + 1) := rfl
    rw [hrp]
    have hcnt : (a ++ (renderPh (idx + 1) ++ b)).count '?' = m := by
      rw [List.count_append, List.count_append, hca, hcb,
        List.count_eq_zero.mpr (q_not_in_renderPh (idx + 1))]
      omega
    rw [ih (a ++ (renderPh (idx + 1) ++ b)) (idx + 1) hcnt,
      substQs_append_noq a hna (renderPh (idx + 1) ++ b) (idx + 1),
      substQs_append_noq (renderPh (idx + 1)) (q_not_in_renderPh (idx + 1)) b (idx + 1),
      substQs_append_noq a hna ('?' :: b) idx]
    rw [Prod.ext_iff]
    refine ⟨?_, ?_⟩
    · simp [substQs]
    · simp
      omega

lemma phNums_substQs : ∀ (sql : GoStr) (idx : Nat), '$' ∉ sql → noQDigit sql = true →
    phNums (substQs sql idx) = List.range' (idx + 1) (sql.count '?') := by
  intro sql
  induction sql with
  | nil => intro idx _ _; simp [substQs, phNums_nil]
  | cons c rest ih =>
    intro idx hd hq
    have hc : c ≠ '$' := fun he => hd (he ▸ List.mem_cons_self c rest)
    have hdrest : '$' ∉ rest := fun hm => hd (List.mem_cons_of_mem c hm)
    have hqrest : noQDigit rest = true := noQDigit_tail c rest hq
    by_cases hcq : c = '?'
    · subst hcq
      have hsub : substQs ('?' :: rest) idx = renderPh (idx + 1) ++ substQs rest (idx + 1) := by
        simp [substQs]
      rw [hsub]
      have hnd : headNotDigit (substQs rest (idx + 1)) := by
        cases rest with
        | nil => intro x hx; simp [substQs] at hx
        | cons d r2 =>
          intro x hx
          rw [head_substQs] at hx
          injection hx with hx'
          rw [← hx']
          by_cases hdq : d = '?'
          · rw [if_pos hdq]; decide
          · rw [if_neg hdq]
            exact noQDigit_head_q d r2 hq
      rw [phNums_renderPh (idx + 1) (substQs rest (idx + 1)) hnd, ih (idx + 1) hdrest hqrest]
      have hcnt : ('?' :: rest).count '?' = rest.count '?' + 1 := by
        simp [List.count_cons]
      rw [hcnt, List.range'_succ]
    · have hsub : substQs (c :: rest) idx = c :: substQs rest idx := by
        simp [substQs, hcq]
      rw [hsub, phNums_cons_skip c _ hc, ih idx hdrest hqrest]
      have hcnt : (c :: rest).count '?' = rest.count '?' := by
        simp [List.count_cons, Ne.symm hcq]
      rw [hcnt]

end Sqld

namespace Sqld

lemma range_one (s : Nat) : List.range' s 1 = [s] := by
  simp [List.range'_succ]

lemma not_mem_of_contains_false (s : GoStr) (c : Char) (h : s.contains c = false) :
    c ∉ s := by
  intro hm
  have hc : s.contains c = true := List.elem_iff.mpr hm
  rw [hc] at h
  cases h

lemma phNums_simple (c m : GoStr) (k : Nat) (hc : '$' ∉ c) (hm : '$' ∉ m) :
    phNums (c ++ m ++ renderPh k) = [k] := by
  have hcm : '$' ∉ c ++ m := by
    intro h
    rcases List.mem_append.mp h with h1 | h2
    · exact hc h1
    · exact hm h2
  rw [phNums_no_dollar (c ++ m) (renderPh k) hcm, phNums_renderPh_nil]

/-- Appending one condition whose placeholders are the next consecutive
run preserves the invariant. -/
lemma WInv_add (s : Nat) (w : WhereBuilder) (sql : GoStr) (ps : List GoVal)
    (hph : phNums sql = List.range' (w.paramIndex + 1) ps.length)
    (hw : WInv s w) :
    WInv s { w with conditions := w.conditions ++ [⟨sql, ps.length⟩],
                    params := w.params ++ ps,
                    paramIndex := w.paramIndex + ps.length } := by
  obtain ⟨hd, hpi, hlen, hcph⟩ := hw
  refine ⟨hd, ?_, ?_, ?_⟩
  · simp only [List.length_append]
    omega
  · simp only [List.length_append, sumPC_append]
    omega
  · exact condsPh_append w.conditions ⟨sql, ps.length⟩ s hcph (by
      rw [hph]
      congr 1
      omega)

lemma WInv_addCondition_ph (s : Nat) (w : WhereBuilder) (col mid : GoStr) (v : GoVal)
    (hcol : '$' ∉ col) (hmid : '$' ∉ mid) (hw : WInv s w) :
    WInv s (({ w with paramIndex := w.paramIndex + 1 }).addCondition
      (col ++ mid ++ renderPh (w.paramIndex + 1)) v) := by
  have hph : phNums (col ++ mid ++ renderPh (w.paramIndex + 1)) =
      List.range' (w.paramIndex + 1) ([v] : List GoVal).length := by
    rw [phNums_simple col mid _ hcol hmid]
    simp [range_one]
  have h := WInv_add s w (col ++ mid ++ renderPh (w.paramIndex + 1)) [v] hph hw
  simpa [WhereBuilder.addCondition] using h

lemma inv_Equal (s : Nat) (w : WhereBuilder) (c : GoStr) (v : GoVal)
    (hc : '$' ∉ c) (hw : WInv s w) : WInv s (w.Equal c v) := by
  by_cases hv : v = .vnull
  · simpa [WhereBuilder.Equal, hv] using hw
  · have hd := hw.1
    simp only [WhereBuilder.Equal, hv, if_false, WhereBuilder.placeholderStep, hd]
    rw [← hd]
    exact WInv_addCondition_ph s w c (gs (" = ")) v hc (by decide) hw

lemma inv_NotEqual (s : Nat) (w : WhereBuilder) (c : GoStr) (v : GoVal)
    (hc : '$' ∉ c) (hw : WInv s w) : WInv s (w.NotEqual c v) := by
  by_cases hv : v = .vnull
  · simpa [WhereBuilder.NotEqual, hv] using hw
  · have hd := hw.1
    simp only [WhereBuilder.NotEqual, hv, if_false, WhereBuilder.placeholderStep, hd]
    rw [← hd]
    exact WInv_addCondition_ph s w c (gs (" != ")) v hc (by decide) hw

lemma inv_GreaterThan (s : Nat) (w : WhereBuilder) (c : GoStr) (v : GoVal)
    (hc : '$' ∉ c) (hw : WInv s w) : WInv s (w.GreaterThan c v) := by
  by_cases hv : v = .vnull
  · simpa [WhereBuilder.GreaterThan, hv] using hw
  · have hd := hw.1
    simp only [WhereBuilder.GreaterThan, hv, if_false, WhereBuilder.placeholderStep, hd]
    rw [← hd]
    exact WInv_addCondition_ph s w c (gs (" > ")) v hc (by decide) hw

lemma inv_LessThan (s : Nat) (w : WhereBuilder) (c : GoStr) (v : GoVal)
    (hc : '$' ∉ c) (hw : WInv s w) : WInv s (w.LessThan c v) := by
  by_cases hv : v = .vnull
  · simpa [WhereBuilder.LessThan, hv] using hw
  · have hd := hw.1
    simp only [WhereBuilder.LessThan, hv, if_false, WhereBuilder.placeholderStep, hd]
    rw [← hd]
    exact WInv_addCondition_ph s w c (gs (" < ")) v hc (by decide) hw

lemma inv_Like (s : Nat) (w : WhereBuilder) (c : GoStr) (v : GoStr)
    (hc : '$' ∉ c) (hw : WInv s w) : WInv s (w.Like c v) := by
  by_cases hv : v = []
  · simpa [WhereBuilder.Like, hv] using hw
  · have hd := hw.1
    simp only [WhereBuilder.Like, hv, if_false, WhereBuilder.placeholderStep, hd]
    rw [← hd]
    exact WInv_addCondition_ph s w c (gs (" LIKE ")) (.vstr v) hc (by decide) hw

lemma inv_ILike (s : Nat) (w : WhereBuilder) (c : GoStr) (v : GoStr)
    (hc : '$' ∉ c) (hw : WInv s w) : WInv s (w.ILike c v) := by
  by_cases hv : v = []
  · simpa [WhereBuilder.ILike, hv] using hw
  · have hd := hw.1
    simp only [WhereBuilder.ILike, hv, if_false, hd, if_true, WhereBuilder.placeholderStep]
    rw [← hd]
    exact WInv_addCondition_ph s w c (gs (" ILIKE ")) (.vstr v) hc (by decide) hw

end Sqld

namespace Sqld

lemma inv_IsNull (s : Nat) (w : WhereBuilder) (c : GoStr) (hc : '$' ∉ c) (hw : WInv s w) :
    WInv s (w.IsNull c) := by
  have hph : phNums (c ++ gs (" IS NULL")) =
      List.range' (w.paramIndex + 1) (([] : List GoVal)).length := by
    rw [phNums_of_no_dollar]
    · rfl
    · intro h
      rcases List.mem_append.mp h with h1 | h2
      · exact hc h1
      · exact absurd h2 (by decide)
  have h := WInv_add s w (c ++ gs (" IS NULL")) [] hph hw
  simpa [WhereBuilder.IsNull] using h

lemma inv_IsNotNull (s : Nat) (w : WhereBuilder) (c : GoStr) (hc : '$' ∉ c) (hw : WInv s w) :
    WInv s (w.IsNotNull c) := by
  have hph : phNums (c ++ gs (" IS NOT NULL")) =
      List.range' (w.paramIndex + 1) (([] : List GoVal)).length := by
    rw [phNums_of_no_dollar]
    · rfl
    · intro h
      rcases List.mem_append.mp h with h1 | h2
      · exact hc h1
      · exact absurd h2 (by decide)
  have h := WInv_add s w (c ++ gs (" IS NOT NULL")) [] hph hw
  simpa [WhereBuilder.IsNotNull] using h

lemma inv_Between (s : Nat) (w : WhereBuilder) (c : GoStr) (a b : GoVal)
    (hc : '$' ∉ c) (hw : WInv s w) : WInv s (w.Between c a b) := by
  by_cases hnull : a = .vnull ∨ b = .vnull
  · simpa [WhereBuilder.Between, hnull] using hw
  · have hd := hw.1
    have hph : phNums (c ++ gs (" BETWEEN ") ++ renderPh (w.paramIndex + 1) ++ gs (" AND ")
        ++ renderPh (w.paramIndex + 1 + 1)) =
        List.range' (w.paramIndex + 1) (([a, b] : List GoVal)).length := by
      rw [phNums_append_notdigit _ (renderPh (w.paramIndex + 1 + 1))
          (headNotDigit_of_head_eq (renderPh (w.paramIndex + 1 + 1)) '$' rfl (by decide)),
        phNums_renderPh_nil,
        phNums_append_notdigit _ (gs (" AND "))
          (headNotDigit_of_head_eq (gs (" AND ")) ' ' rfl (by decide)),
        phNums_of_no_dollar (gs (" AND ")) (by decide),
        phNums_simple c (gs (" BETWEEN ")) (w.paramIndex + 1) hc (by decide)]
      simp [List.range'_succ, range_one]
    have h := WInv_add s w _ [a, b] hph hw
    simp only [WhereBuilder.Between, hnull, if_false, WhereBuilder.placeholderStep, hd,
      WhereBuilder.addConditionWithParams]
    rw [← hd]
    simpa using h

lemma inv_In (s : Nat) (w : WhereBuilder) (c : GoStr) (vs : List GoVal)
    (hc : '$' ∉ c) (hw : WInv s w) : WInv s (w.In c vs) := by
  by_cases hlen : vs.length = 0
  · simpa [WhereBuilder.In, hlen] using hw
  · have hd := hw.1
    have hphl := placeholderN_postgres vs.length w hd
    have hph : phNums (c ++ gs (" IN (") ++
        List.intercalate (gs (", ")) ((List.range' (w.paramIndex + 1) vs.length).map renderPh)
        ++ [')']) = List.range' (w.paramIndex + 1) vs.length := by
      rw [phNums_append_notdigit _ [')']
          (headNotDigit_of_head_eq [')'] ')' rfl (by decide)),
        phNums_of_no_dollar [')'] (by decide),
        phNums_no_dollar (c ++ gs (" IN (")) _ (by
          intro h
          rcases List.mem_append.mp h with h1 | h2
          · exact hc h1
          · exact absurd h2 (by decide)),
        phNums_ph_list]
      simp
    have h := WInv_add s w _ vs hph hw
    simp only [WhereBuilder.In, hlen, if_false, hphl]
    simpa using h

lemma inv_Raw (s : Nat) (w : WhereBuilder) (sql : GoStr) (ps : List GoVal)
    (hnd : '$' ∉ sql) (hcq : sql.count '?' = ps.length) (hq : noQDigit sql = true)
    (hw : WInv s w) : WInv s (w.Raw sql ps) := by
  have hd := hw.1
  have hpr : processRawSQL w.dialect sql ps.length w.paramIndex =
      (substQs sql w.paramIndex, w.paramIndex + ps.length) := by
    rw [processRawSQL, if_pos hd, processRawSQLPG_substQs ps.length sql w.paramIndex hcq]
  have hph : phNums (substQs sql w.paramIndex) =
      List.range' (w.paramIndex + 1) ps.length := by
    rw [phNums_substQs sql w.paramIndex hnd hq, hcq]
  have h := WInv_add s w (substQs sql w.paramIndex) ps hph hw
  simp only [WhereBuilder.Raw, hpr]
  simpa using h

lemma inv_or (s : Nat) (w : WhereBuilder) (f : WhereBuilder → WhereBuilder)
    (hw : WInv s w)
    (hf : ∀ w0, WInv w.paramIndex w0 → WInv w.paramIndex (f w0)) :
    WInv s (w.Or f) := by
  obtain ⟨hd, hpi, hlen, hcph⟩ := hw
  have hfresh : WInv w.paramIndex { NewWhereBuilder w.dialect with paramIndex := w.paramIndex } := by
    exact ⟨hd, rfl, rfl, trivial⟩
  have hsub := hf _ hfresh
  simp only [WhereBuilder.Or]
  obtain ⟨hsd, hspi, hslen, hscph⟩ := hsub
  by_cases hcnt : (f { NewWhereBuilder w.dialect with paramIndex := w.paramIndex }).conditions.length > 0
  · rw [if_pos hcnt]
    have hph : phNums (('(' :: List.intercalate (gs (" OR "))
        (((f { NewWhereBuilder w.dialect with paramIndex := w.paramIndex }).conditions).map (·.SQL))) ++ [')'])
        = List.range' (w.paramIndex + 1)
            (f { NewWhereBuilder w.dialect with paramIndex := w.paramIndex }).params.length := by
      rw [List.cons_append, phNums_cons_skip '(' _ (by decide),
        phNums_append_notdigit _ [')'] (headNotDigit_of_head_eq [')'] ')' rfl (by decide)),
        phNums_of_no_dollar [')'] (by decide),
        joinPh (gs (" OR ")) (by decide)
          (fun X => headNotDigit_of_head_eq (gs (" OR ") ++ X) ' ' rfl (by decide))
          (f { NewWhereBuilder w.dialect with paramIndex := w.paramIndex }).conditions
          w.paramIndex hscph,
        hslen]
      simp
    have h := WInv_add s w _
      (f { NewWhereBuilder w.dialect with paramIndex := w.paramIndex }).params hph
      ⟨hd, hpi, hlen, hcph⟩
    rw [show (f { NewWhereBuilder w.dialect with paramIndex := w.paramIndex }).paramIndex
        = w.paramIndex +
          (f { NewWhereBuilder w.dialect with paramIndex := w.paramIndex }).params.length
      from by rw [hspi]]
    simpa using h
  · rw [if_neg hcnt]
    exact ⟨hd, hpi, hlen, hcph⟩

end Sqld

namespace Sqld

mutual

/-- One sane call preserves the numbering invariant. -/
theorem applyOp_inv : ∀ (op : WOp) (s : Nat) (w : WhereBuilder),
    op.okb = true → WInv s w → WInv s (applyOp w op)
  | .equal c v, s, w, hok, hw => by
    have hc := not_mem_of_contains_false c '$' (by simpa [WOp.okb] using hok)
    simpa [applyOp] using inv_Equal s w c v hc hw
  | .notEqual c v, s, w, hok, hw => by
    have hc := not_mem_of_contains_false c '$' (by simpa [WOp.okb] using hok)
    simpa [applyOp] using inv_NotEqual s w c v hc hw
  | .greaterThan c v, s, w, hok, hw => by
    have hc := not_mem_of_contains_false c '$' (by simpa [WOp.okb] using hok)
    simpa [applyOp] using inv_GreaterThan s w c v hc hw
  | .lessThan c v, s, w, hok, hw => by
    have hc := not_mem_of_contains_false c '$' (by simpa [WOp.okb] using hok)
    simpa [applyOp] using inv_LessThan s w c v hc hw
  | .like c v, s, w, hok, hw => by
    have hc := not_mem_of_contains_false c '$' (by simpa [WOp.okb] using hok)
    simpa [applyOp] using inv_Like s w c v hc hw
  | .ilike c v, s, w, hok, hw => by
    have hc := not_mem_of_contains_false c '$' (by simpa [WOp.okb] using hok)
    simpa [applyOp] using inv_ILike s w c v hc hw
  | .inList c vs, s, w, hok, hw => by
    have hc := not_mem_of_contains_false c '$' (by simpa [WOp.okb] using hok)
    simpa [applyOp] using inv_In s w c vs hc hw
  | .between c a b, s, w, hok, hw => by
    have hc := not_mem_of_contains_false c '$' (by simpa [WOp.okb] using hok)
    simpa [applyOp] using inv_Between s w c a b hc hw
  | .isNull c, s, w, hok, hw => by
    have hc := not_mem_of_contains_false c '$' (by simpa [WOp.okb] using hok)
    simpa [applyOp] using inv_IsNull s w c hc hw
  | .isNotNull c, s, w, hok, hw => by
    have hc := not_mem_of_contains_false c '$' (by simpa [WOp.okb] using hok)
    simpa [applyOp] using inv_IsNotNull s w c hc hw
  | .raw sql ps, s, w, hok, hw => by
    simp only [WOp.okb, Bool.and_eq_true] at hok
    have hnd := not_mem_of_contains_false sql '$' (by simpa using hok.1.1)
    have hcq : sql.count '?' = ps.length := by simpa using hok.1.2
    simpa [applyOp] using inv_Raw s w sql ps hnd hcq hok.2 hw
  | .orGroup ops, s, w, hok, hw => by
    have hops : opsOkb ops = true := by simpa [WOp.okb] using hok
    simp only [applyOp]
    exact inv_or s w _ hw (fun w0 h0 => applyOps_inv ops w.paramIndex w0 hops h0)

/-- A sane call sequence preserves the numbering invariant. -/
theorem applyOps_inv : ∀ (ops : List WOp) (s : Nat) (w : WhereBuilder),
    opsOkb ops = true → WInv s w → WInv s (applyOps w ops)
  | [], _, w, _, hw => by simpa [applyOps] using hw
  | op :: rest, s, w, hok, hw => by
    simp only [opsOkb, Bool.and_eq_true] at hok
    simp only [applyOps]
    exact applyOps_inv rest s (applyOp w op) hok.2 (applyOp_inv op s w hok.1 hw)

end

end Sqld

namespace Sqld

/-- C1: for every sequence of condition-builder calls on a `WhereBuilder`
created with the Postgres dialect (columns free of `$`; every raw fragment
carrying no `$`, exactly one `?` per supplied parameter, and no `?`
running into a digit), the placeholder numbers appearing in the SQL
returned by `Build` are exactly `1, 2, ..., k` in order, with no gaps or
repeats, where `k` is the length of the returned parameter list; moreover
`k` equals the sum of `ParamCount` over the accumulated conditions, and
the builder's running counter equals `k`, regardless of how many OR-groups
or raw fragments were interleaved. -/
theorem C1_placeholder_monotonicity (ops : List WOp) (hok : opsOkb ops = true) :
    phNums ((applyOps (NewWhereBuilder .postgres) ops).Build).1 =
      List.range' 1 ((applyOps (NewWhereBuilder .postgres) ops).Build).2.length ∧
    ((applyOps (NewWhereBuilder .postgres) ops).Build).2.length =
      sumPC (applyOps (NewWhereBuilder .postgres) ops).conditions ∧
    (applyOps (NewWhereBuilder .postgres) ops).paramIndex =
      ((applyOps (NewWhereBuilder .postgres) ops).Build).2.length := by
  have hw : WInv 0 (applyOps (NewWhereBuilder .postgres) ops) :=
    applyOps_inv ops 0 (NewWhereBuilder .postgres) hok ⟨rfl, rfl, rfl, trivial⟩
  obtain ⟨hd, hpi, hlen, hcph⟩ := hw
  by_cases hc : (applyOps (NewWhereBuilder .postgres) ops).conditions.length = 0
  · have hb : (applyOps (NewWhereBuilder .postgres) ops).Build = ([], []) := by
      rw [WhereBuilder.Build, if_pos hc]
    have hc0 : (applyOps (NewWhereBuilder .postgres) ops).conditions = [] :=
      List.length_eq_zero.mp hc
    rw [hb, hc0]
    refine ⟨rfl, rfl, ?_⟩
    rw [hc0] at hlen
    simp only [sumPC, List.map_nil, List.sum_nil] at hlen
    simp only [List.length_nil]
    omega
  · have hb : (applyOps (NewWhereBuilder .postgres) ops).Build =
        (List.intercalate (gs (" AND "))
          ((applyOps (NewWhereBuilder .postgres) ops).conditions.map (·.SQL)),
         (applyOps (NewWhereBuilder .postgres) ops).params) := by
      rw [WhereBuilder.Build, if_neg hc]
    rw [hb]
    refine ⟨?_, hlen, ?_⟩
    · rw [joinPh (gs (" AND ")) (by decide)
        (fun X => headNotDigit_of_head_eq (gs (" AND ") ++ X) ' ' rfl (by decide))
        (applyOps (NewWhereBuilder .postgres) ops).conditions 0 hcph, hlen]
    · show (applyOps (NewWhereBuilder .postgres) ops).paramIndex =
        (applyOps (NewWhereBuilder .postgres) ops).params.length
      omega

/-- Witness for C1 at a concrete call sequence mixing simple comparisons,
an OR-group with a raw two-parameter fragment, an IN-list, a BETWEEN and
an IS NULL. -/
theorem C1_placeholder_monotonicity_witness :
    opsOkb [WOp.equal (gs ("a")) (.vint 1),
      WOp.orGroup [WOp.lessThan (gs ("b")) (.vint 2),
        WOp.raw (gs ("c = ? AND d = ?")) [.vint 3, .vint 4]],
      WOp.inList (gs ("e")) [.vint 5, .vint 6],
      WOp.between (gs ("f")) (.vint 7) (.vint 8),
      WOp.isNull (gs ("g"))] = true ∧
    (phNums ((applyOps (NewWhereBuilder .postgres)
        [WOp.equal (gs ("a")) (.vint 1),
          WOp.orGroup [WOp.lessThan (gs ("b")) (.vint 2),
            WOp.raw (gs ("c = ? AND d = ?")) [.vint 3, .vint 4]],
          WOp.inList (gs ("e")) [.vint 5, .vint 6],
          WOp.between (gs ("f")) (.vint 7) (.vint 8),
          WOp.isNull (gs ("g"))]).Build).1 =
      List.range' 1 ((applyOps (NewWhereBuilder .postgres)
        [WOp.equal (gs ("a")) (.vint 1),
          WOp.orGroup [WOp.lessThan (gs ("b")) (.vint 2),
            WOp.raw (gs ("c = ? AND d = ?")) [.vint 3, .vint 4]],
          WOp.inList (gs ("e")) [.vint 5, .vint 6],
          WOp.between (gs ("f")) (.vint 7) (.vint 8),
          WOp.isNull (gs ("g"))]).Build).2.length ∧
    ((applyOps (NewWhereBuilder .postgres)
        [WOp.equal (gs ("a")) (.vint 1),
          WOp.orGroup [WOp.lessThan (gs ("b")) (.vint 2),
            WOp.raw (gs ("c = ? AND d = ?")) [.vint 3, .vint 4]],
          WOp.inList (gs ("e")) [.vint 5, .vint 6],
          WOp.between (gs ("f")) (.vint 7) (.vint 8),
          WOp.isNull (gs ("g"))]).Build).2.length =
      sumPC (applyOps (NewWhereBuilder .postgres)
        [WOp.equal (gs ("a")) (.vint 1),
          WOp.orGroup [WOp.lessThan (gs ("b")) (.vint 2),
            WOp.raw (gs ("c = ? AND d = ?")) [.vint 3, .vint 4]],
          WOp.inList (gs ("e")) [.vint 5, .vint 6],
          WOp.between (gs ("f")) (.vint 7) (.vint 8),
          WOp.isNull (gs ("g"))]).conditions ∧
    (applyOps (NewWhereBuilder .postgres)
        [WOp.equal (gs ("a")) (.vint 1),
          WOp.orGroup [WOp.lessThan (gs ("b")) (.vint 2),
            WOp.raw (gs ("c = ? AND d = ?")) [.vint 3, .vint 4]],
          WOp.inList (gs ("e")) [.vint 5, .vint 6],
          WOp.between (gs ("f")) (.vint 7) (.vint 8),
          WOp.isNull (gs ("g"))]).paramIndex =
      ((applyOps (NewWhereBuilder .postgres)
        [WOp.equal (gs ("a")) (.vint 1),
          WOp.orGroup [WOp.lessThan (gs ("b")) (.vint 2),
            WOp.raw (gs ("c = ? AND d = ?")) [.vint 3, .vint 4]],
          WOp.inList (gs ("e")) [.vint 5, .vint 6],
          WOp.between (gs ("f")) (.vint 7) (.vint 8),
          WOp.isNull (gs ("g"))]).Build).2.length) :=
  ⟨by decide, C1_placeholder_monotonicity
    [WOp.equal (gs ("a")) (.vint 1),
      WOp.orGroup [WOp.lessThan (gs ("b")) (.vint 2),
        WOp.raw (gs ("c = ? AND d = ?")) [.vint 3, .vint 4]],
      WOp.inList (gs ("e")) [.vint 5, .vint 6],
      WOp.between (gs ("f")) (.vint 7) (.vint 8),
      WOp.isNull (gs ("g"))] (by decide)⟩

end Sqld

namespace Sqld

/-! ## The cursor codec (`reflection_scanner.go`): base64(json) round trip.

Bytes are modeled as `Nat` values below 256.  Go strings are UTF-8 byte
sequences; the model encodes a `GoStr` (a list of runes) through the
standard UTF-8 layout. -/

/-- UTF-8 bytes of one rune. -/
def utf8EncodeChar (c : Char) : List Nat :=
  let n := c.toNat
  if n < 0x80 then [n]
  else if n < 0x800 then [0xC0 + n / 64, 0x80 + n % 64]
  else if n < 0x10000 then [0xE0 + n / 4096, 0x80 + n / 64 % 64, 0x80 + n % 64]
  else [0xF0 + n / 262144, 0x80 + n / 4096 % 64, 0x80 + n / 64 % 64, 0x80 + n % 64]

/-- ASCII byte of one lowercase hex digit. -/
def hexByte (n : Nat) : Nat := if n < 10 then 48 + n else 87 + n

/-- The six-byte escape `\uXXXX` (lowercase hex), as `encoding/json` writes it. -/
def escU (n : Nat) : List Nat :=
  [0x5C, 0x75, hexByte (n / 4096 % 16), hexByte (n / 256 % 16),
   hexByte (n / 16 % 16), hexByte (n % 16)]

/-- `encoding/json`'s escaping of one rune of a string (HTML escaping on,
as in the default `json.Marshal`): quote, backslash and the three short
control escapes get two-byte forms; other controls, `<`, `>`, `&`,
U+2028 and U+2029 get `\uXXXX`; everything else passes through as its
UTF-8 bytes. -/
def escapeChar (c : Char) : List Nat :=
  let n := c.toNat
  if n = 0x22 then [0x5C, 0x22]
  else if n = 0x5C then [0x5C, 0x5C]
  else if n = 0x0A then [0x5C, 0x6E]
  else if n = 0x0D then [0x5C, 0x72]
  else if n = 0x09 then [0x5C, 0x74]
  else if n < 0x20 then escU n
  else if n = 0x3C ∨ n = 0x3E ∨ n = 0x26 then escU n
  else if n = 0x2028 ∨ n = 0x2029 then escU n
  else utf8EncodeChar c

/-- Escaped bytes of a whole string (without the surrounding quotes). -/
def escBytes (s : GoStr) : List Nat := (s.map escapeChar).flatten

/-- Left-pad a decimal rendering with zeros (RFC 3339 fields). -/
def padDigits (w n : Nat) : GoStr :=
  List.replicate (w - (natToChars n).length) '0' ++ natToChars n

/-- The bytes `json.Marshal` produces for the modeled dynamic values:
null/booleans/integers verbatim, strings quoted and escaped, string
slices as arrays, dates as their RFC 3339 string at midnight UTC, float
literals verbatim. -/
def jsonBytes : GoVal → List Nat
  | .vnull => (gs ("null")).map Char.toNat
  | .vbool true => (gs ("true")).map Char.toNat
  | .vbool false => (gs ("false")).map Char.toNat
  | .vint n => (itoa n).map Char.toNat
  | .vstr s => 0x22 :: escBytes s ++ [0x22]
  | .vstrList l =>
    0x5B :: List.intercalate [0x2C] (l.map (fun s => 0x22 :: escBytes s ++ [0x22])) ++ [0x5D]
  | .vdate y m d =>
    0x22 :: ((padDigits 4 y ++ ['-'] ++ padDigits 2 m ++ ['-'] ++ padDigits 2 d
      ++ gs ("T00:00:00Z")).map Char.toNat) ++ [0x22]
  | .vfloatLit s => s.map Char.toNat

/-- Model of `json.Marshal(CursorData\x7bTimestamp: ts, ID: idv\x7d)`:
an object with the tagged keys in struct order. -/
def jsonMarshalCursorData (ts idv : GoVal) : List Nat :=
  0x7B :: ([0x22] ++ (gs ("timestamp")).map Char.toNat ++ [0x22, 0x3A] ++ jsonBytes ts
    ++ [0x2C, 0x22] ++ (gs ("id")).map Char.toNat ++ [0x22, 0x3A] ++ jsonBytes idv
    ++ [0x7D])

/-- One character of the URL-safe base64 alphabet (`base64.URLEncoding`). -/
def b64Char (n : Nat) : Char :=
  if n < 26 then Char.ofNat (65 + n)
  else if n < 52 then Char.ofNat (97 + (n - 26))
  else if n < 62 then Char.ofNat (48 + (n - 52))
  else if n = 62 then '-'
  else '_'

/-- Decode one base64 character back to its 6-bit value. -/
def b64Inv (c : Char) : Option Nat :=
  let n := c.toNat
  if 65 ≤ n ∧ n ≤ 90 then some (n - 65)
  else if 97 ≤ n ∧ n ≤ 122 then some (n - 97 + 26)
  else if 48 ≤ n ∧ n ≤ 57 then some (n - 48 + 52)
  else if n = 45 then some 62
  else if n = 95 then some 63
  else none

/-- `base64.URLEncoding.EncodeToString`: chunks of three bytes into four
characters, with `=` padding on the final partial chunk. -/
def b64Encode : List Nat → GoStr
  | [] => []
  | [a] => [b64Char (a / 4), b64Char (a % 4 * 16), '=', '=']
  | [a, b] => [b64Char (a / 4), b64Char (a % 4 * 16 + b / 16), b64Char (b % 16 * 4), '=']
  | a :: b :: c :: rest =>
    b64Char (a / 4) :: b64Char (a % 4 * 16 + b / 16) :: b64Char (b % 16 * 4 + c / 64)
      :: b64Char (c % 64) :: b64Encode rest

/-- `base64.URLEncoding.DecodeString`: four characters at a time, `=`
padding only at the very end.  (As in Go's default decoder, unused
trailing bits in a padded chunk are not required to be zero.) -/
def b64Decode : GoStr → Option (List Nat)
  | [] => some []
  | c1 :: c2 :: c3 :: c4 :: rest =>
    match b64Inv c1, b64Inv c2 with
    | some a, some b =>
      if c3 = '=' then
        if c4 = '=' ∧ rest = [] then some [a * 4 + b / 16] else none
      else
        match b64Inv c3 with
        | some c =>
          if c4 = '=' then
            if rest = [] then some [a * 4 + b / 16, b % 16 * 16 + c / 4] else none
          else
            match b64Inv c4, b64Decode rest with
            | some d, some bs =>
              some ((a * 4 + b / 16) :: (b % 16 * 16 + c / 4) :: (c % 4 * 64 + d) :: bs)
            | _, _ => none
        | none => none
    | _, _ => none
  | _ => none

end Sqld

namespace Sqld

/-- Model of `EncodeCursor`: marshal the `CursorData` pair and base64 it
(the ignored marshal error cannot occur for the modeled values). -/
def EncodeCursor (timestamp idv : GoVal) : GoStr :=
  b64Encode (jsonMarshalCursorData timestamp idv)

/-- A dynamic JSON value, as `json.Unmarshal` stores one into an
`interface` field: numbers become `float64` (represented here by their
exact integer value — the codec only meets integer tokens whose value is
float64-exact), strings/booleans/null/arrays/objects as usual. -/
inductive JVal
  | jnull
  | jbool (b : Bool)
  | jnum (n : Int)
  | jstr (s : GoStr)
  | jarr (elems : List JVal)
  | jobj (members : List (GoStr × JVal))

/-- Skip insignificant JSON whitespace. -/
def skipWs : List Nat → List Nat
  | [] => []
  | b :: rest =>
    if b = 0x20 ∨ b = 0x09 ∨ b = 0x0A ∨ b = 0x0D then skipWs rest else b :: rest

/-- Value of one hex digit byte (either case), as in `\uXXXX` escapes. -/
def hexVal (b : Nat) : Option Nat :=
  if 48 ≤ b ∧ b ≤ 57 then some (b - 48)
  else if 97 ≤ b ∧ b ≤ 102 then some (b - 87)
  else if 65 ≤ b ∧ b ≤ 70 then some (b - 55)
  else none

/-- Decode one UTF-8 rune from a byte and the following bytes; malformed
sequences yield U+FFFD over one byte, as Go's decoder does. -/
def utf8DecodeChar (b0 : Nat) (rest : List Nat) : Char × List Nat :=
  if b0 < 0x80 then (Char.ofNat b0, rest)
  else if b0 < 0xC2 then (Char.ofNat 0xFFFD, rest)
  else if b0 < 0xE0 then
    match rest with
    | b1 :: r =>
      if 0x80 ≤ b1 ∧ b1 < 0xC0 then (Char.ofNat ((b0 - 0xC0) * 64 + (b1 - 0x80)), r)
      else (Char.ofNat 0xFFFD, rest)
    | [] => (Char.ofNat 0xFFFD, rest)
  else if b0 < 0xF0 then
    match rest with
    | b1 :: b2 :: r =>
      if (0x80 ≤ b1 ∧ b1 < 0xC0) ∧ (0x80 ≤ b2 ∧ b2 < 0xC0) then
        if (b0 - 0xE0) * 4096 + (b1 - 0x80) * 64 + (b2 - 0x80) < 0x800 ∨
            (0xD800 ≤ (b0 - 0xE0) * 4096 + (b1 - 0x80) * 64 + (b2 - 0x80) ∧
             (b0 - 0xE0) * 4096 + (b1 - 0x80) * 64 + (b2 - 0x80) < 0xE000) then
          (Char.ofNat 0xFFFD, rest)
        else (Char.ofNat ((b0 - 0xE0) * 4096 + (b1 - 0x80) * 64 + (b2 - 0x80)), r)
      else (Char.ofNat 0xFFFD, rest)
    | _ => (Char.ofNat 0xFFFD, rest)
  else if b0 < 0xF5 then
    match rest with
    | b1 :: b2 :: b3 :: r =>
      if (0x80 ≤ b1 ∧ b1 < 0xC0) ∧ (0x80 ≤ b2 ∧ b2 < 0xC0) ∧ (0x80 ≤ b3 ∧ b3 < 0xC0) then
        if (b0 - 0xF0) * 262144 + (b1 - 0x80) * 4096 + (b2 - 0x80) * 64 + (b3 - 0x80) < 0x10000 ∨
            0x10FFFF < (b0 - 0xF0) * 262144 + (b1 - 0x80) * 4096 + (b2 - 0x80) * 64 + (b3 - 0x80) then
          (Char.ofNat 0xFFFD, rest)
        else
          (Char.ofNat ((b0 - 0xF0) * 262144 + (b1 - 0x80) * 4096 + (b2 - 0x80) * 64 + (b3 - 0x80)), r)
      else (Char.ofNat 0xFFFD, rest)
    | _ => (Char.ofNat 0xFFFD, rest)
  else (Char.ofNat 0xFFFD, rest)

/-- Prepend a decoded rune to a string-parse result. -/
def consChar (n : Nat) : Option (GoStr × List Nat) → Option (GoStr × List Nat)
  | some (s, r) => some (Char.ofNat n :: s, r)
  | none => none

/-- Parse the body of a JSON string (after the opening quote), resolving
escapes (including `\uXXXX` with surrogate pairs) and UTF-8 bytes, up to
the closing quote.  Fuel bounds the number of runes. -/
def parseStringF : Nat → List Nat → Option (GoStr × List Nat)
  | 0, _ => none
  | fuel + 1, bs =>
    match bs with
    | [] => none
    | b :: rest =>
      if b = 0x22 then some ([], rest)
      else if b = 0x5C then
        match rest with
        | [] => none
        | e :: r2 =>
          if e = 0x22 ∨ e = 0x5C ∨ e = 0x2F then consChar e (parseStringF fuel r2)
          else if e = 0x62 then consChar 8 (parseStringF fuel r2)
          else if e = 0x66 then consChar 12 (parseStringF fuel r2)
          else if e = 0x6E then consChar 10 (parseStringF fuel r2)
          else if e = 0x72 then consChar 13 (parseStringF fuel r2)
          else if e = 0x74 then consChar 9 (parseStringF fuel r2)
          else if e = 0x75 then
            match r2 with
            | h1 :: h2 :: h3 :: h4 :: r3 =>
              match hexVal h1, hexVal h2, hexVal h3, hexVal h4 with
              | some v1, some v2, some v3, some v4 =>
                if 0xD800 ≤ v1 * 4096 + v2 * 256 + v3 * 16 + v4 ∧
                    v1 * 4096 + v2 * 256 + v3 * 16 + v4 < 0xDC00 then
                  match r3 with
                  | 0x5C :: 0x75 :: g1 :: g2 :: g3 :: g4 :: r4 =>
                    match hexVal g1, hexVal g2, hexVal g3, hexVal g4 with
                    | some u1, some u2, some u3, some u4 =>
                      if 0xDC00 ≤ u1 * 4096 + u2 * 256 + u3 * 16 + u4 ∧
                          u1 * 4096 + u2 * 256 + u3 * 16 + u4 < 0xE000 then
                        consChar (0x10000 +
                          (v1 * 4096 + v2 * 256 + v3 * 16 + v4 - 0xD800) * 1024 +
                          (u1 * 4096 + u2 * 256 + u3 * 16 + u4 - 0xDC00))
                          (parseStringF fuel r4)
                      else consChar 0xFFFD (parseStringF fuel r3)
                    | _, _, _, _ => consChar 0xFFFD (parseStringF fuel r3)
                  | _ => consChar 0xFFFD (parseStringF fuel r3)
                else if 0xDC00 ≤ v1 * 4096 + v2 * 256 + v3 * 16 + v4 ∧
                    v1 * 4096 + v2 * 256 + v3 * 16 + v4 < 0xE000 then
                  consChar 0xFFFD (parseStringF fuel r3)
                else consChar (v1 * 4096 + v2 * 256 + v3 * 16 + v4) (parseStringF fuel r3)
              | _, _, _, _ => none
            | _ => none
          else none
      else
        match utf8DecodeChar b rest with
        | (c, r2) => consChar c.toNat (parseStringF fuel r2)

/-- Longest digit prefix. -/
def takeDigits : List Nat → List Nat × List Nat
  | [] => ([], [])
  | b :: rest =>
    if 48 ≤ b ∧ b ≤ 57 then
      ((b :: (takeDigits rest).1), (takeDigits rest).2)
    else ([], b :: rest)

/-- Value of a digit-byte string. -/
def digitsToNat (ds : List Nat) : Nat := ds.foldl (fun a b => a * 10 + (b - 48)) 0

/-- Would the next byte continue a (non-integer) number token? -/
def numCont : List Nat → Bool
  | b :: _ => b = 0x2E || b = 0x65 || b = 0x45
  | [] => false

/-- Parse a JSON number token.  The model covers integer tokens (the only
form the paired encoder emits); fraction/exponent forms, which Go would
parse into a non-integral float64, are rejected here. -/
def parseNumber (bs : List Nat) : Option (Int × List Nat) :=
  match bs with
  | [] => none
  | b :: r =>
    if b = 0x2D then
      if (takeDigits r).1 = [] then none
      else if numCont (takeDigits r).2 then none
      else some (-(digitsToNat (takeDigits r).1 : Int), (takeDigits r).2)
    else
      if (takeDigits (b :: r)).1 = [] then none
      else if numCont (takeDigits (b :: r)).2 then none
      else some ((digitsToNat (takeDigits (b :: r)).1 : Int), (takeDigits (b :: r)).2)

end Sqld

namespace Sqld

mutual

/-- Parse one JSON value (fuel bounds nesting and string lengths). -/
def parseValueF : Nat → List Nat → Option (JVal × List Nat)
  | 0, _ => none
  | fuel + 1, bs =>
    match skipWs bs with
    | [] => none
    | b :: rest =>
      if b = 0x22 then
        match parseStringF fuel rest with
        | some (s, r) => some (.jstr s, r)
        | none => none
      else if b = 0x6E then
        match rest with
        | 0x75 :: 0x6C :: 0x6C :: r => some (.jnull, r)
        | _ => none
      else if b = 0x74 then
        match rest with
        | 0x72 :: 0x75 :: 0x65 :: r => some (.jbool true, r)
        | _ => none
      else if b = 0x66 then
        match rest with
        | 0x61 :: 0x6C :: 0x73 :: 0x65 :: r => some (.jbool false, r)
        | _ => none
      else if b = 0x5B then
        match skipWs rest with
        | 0x5D :: r => some (.jarr [], r)
        | bs2 =>
          match parseArrItemsF fuel bs2 with
          | some (items, r) => some (.jarr items, r)
          | none => none
      else if b = 0x7B then
        match skipWs rest with
        | 0x7D :: r => some (.jobj [], r)
        | bs2 =>
          match parseMembersF fuel bs2 with
          | some (ms, r) => some (.jobj ms, r)
          | none => none
      else
        match parseNumber (b :: rest) with
        | some (n, r) => some (.jnum n, r)
        | none => none

/-- Parse the elements of a non-empty JSON array. -/
def parseArrItemsF : Nat → List Nat → Option (List JVal × List Nat)
  | 0, _ => none
  | fuel + 1, bs =>
    match parseValueF fuel bs with
    | some (v, r) =>
      match skipWs r with
      | 0x2C :: r2 =>
        match parseArrItemsF fuel r2 with
        | some (items, r3) => some (v :: items, r3)
        | none => none
      | 0x5D :: r2 => some ([v], r2)
      | _ => none
    | none => none

/-- Parse the members of a non-empty JSON object. -/
def parseMembersF : Nat → List Nat → Option (List (GoStr × JVal) × List Nat)
  | 0, _ => none
  | fuel + 1, bs =>
    match skipWs bs with
    | 0x22 :: r =>
      match parseStringF fuel r with
      | some (key, r2) =>
        match skipWs r2 with
        | 0x3A :: r3 =>
          match parseValueF fuel r3 with
          | some (v, r4) =>
            match skipWs r4 with
            | 0x2C :: r5 =>
              match parseMembersF fuel r5 with
              | some (ms, r6) => some ((key, v) :: ms, r6)
              | none => none
            | 0x7D :: r5 => some ([(key, v)], r5)
            | _ => none
          | none => none
        | _ => none
      | none => none
    | _ => none

end

/-- The value a struct field receives: Go keeps the last member whose
key matches the field's tag.  (The case-insensitive fallback match never
fires for the fixed lowercase tags here.) -/
def findField (ms : List (GoStr × JVal)) (key : GoStr) : JVal :=
  ms.foldl (fun acc m => if m.1 = key then m.2 else acc) .jnull

/-- Model of `json.Unmarshal(data, &cursorData)` for the two-field
`CursorData` struct: the top-level value must be an object (or `null`,
which leaves both fields nil) followed only by whitespace. -/
def unmarshalCursorData (data : List Nat) : Option (JVal × JVal) :=
  match parseValueF (data.length + 1) data with
  | some (v, rest) =>
    if skipWs rest = [] then
      match v with
      | .jnull => some (.jnull, .jnull)
      | .jobj ms => some (findField ms (gs ("timestamp")), findField ms (gs ("id")))
      | _ => none
    else none
  | none => none

/-- Go's `int32(f)` on an integral float64: exact when in range; the
out-of-range case is implementation-specific in Go and fixed to 0 here
(the round-trip theorem only meets the in-range case). -/
def int32ofFloat (n : Int) : Int :=
  if -(2 ^ 31) ≤ n ∧ n < 2 ^ 31 then n else 0

/-- The decoded `Cursor`, its `CreatedAt` interface field holding the
dynamic JSON value. -/
structure CursorIface where
  CreatedAt : JVal
  ID : Int

/-- Model of `DecodeCursor`: empty input is no cursor and no error;
otherwise base64-decode (error on failure), unmarshal (error on
failure), and narrow the dynamic ID through the float64 type switch
(any non-number leaves the zero ID). -/
def DecodeCursor (encoded : GoStr) : Except GoStr (Option CursorIface) :=
  if encoded = [] then .ok none
  else
    match b64Decode encoded with
    | none => .error (gs ("invalid cursor encoding"))
    | some data =>
      match unmarshalCursorData data with
      | none => .error (gs ("invalid cursor format"))
      | some (ts, idv) =>
        .ok (some ⟨ts, match idv with | .jnum n => int32ofFloat n | _ => 0⟩)

/-- The dynamic JSON value an encoded `GoVal` comes back as: integers as
their (float64-exact) numeric value, dates as their RFC 3339 string. -/
def jrepr : GoVal → JVal
  | .vnull => .jnull
  | .vbool b => .jbool b
  | .vint n => .jnum n
  | .vstr s => .jstr s
  | .vstrList l => .jarr (l.map .jstr)
  | .vdate y m d => .jstr (padDigits 4 y ++ ['-'] ++ padDigits 2 m ++ ['-'] ++ padDigits 2 d
      ++ gs ("T00:00:00Z"))
  | .vfloatLit _ => .jnull

/-- Ordering values the round-trip theorem covers: null, booleans,
float64-exact integers and strings. -/
def cursorValOk : GoVal → Bool
  | .vnull => true
  | .vbool _ => true
  | .vint n => n.natAbs ≤ 2 ^ 53
  | .vstr _ => true
  | _ => false

end Sqld

namespace Sqld

lemma b64Inv_b64Char : ∀ k, k < 64 → b64Inv (b64Char k) = some k := by decide

lemma b64Char_ne_pad : ∀ k, k < 64 → b64Char k ≠ '=' := by decide

end Sqld

namespace Sqld

/-- Decoding inverts encoding on byte lists. -/
lemma b64_roundtrip : ∀ bs : List Nat, (∀ x ∈ bs, x < 256) →
    b64Decode (b64Encode bs) = some bs := by
  intro bs
  induction bs using b64Encode.induct with
  | case1 => intro _; rfl
  | case2 a =>
    intro h
    have ha : a < 256 := h a (by simp)
    have h1 := b64Inv_b64Char (a / 4) (by omega)
    have h2 := b64Inv_b64Char (a % 4 * 16) (by omega)
    simp only [b64Encode, b64Decode, h1, h2]
    simp
    omega
  | case3 a b =>
    intro h
    have ha : a < 256 := h a (by simp)
    have hb : b < 256 := h b (by simp)
    have h1 := b64Inv_b64Char (a / 4) (by omega)
    have h2 := b64Inv_b64Char (a % 4 * 16 + b / 16) (by omega)
    have h3 := b64Inv_b64Char (b % 16 * 4) (by omega)
    have hne := b64Char_ne_pad (b % 16 * 4) (by omega)
    simp only [b64Encode, b64Decode, h1, h2, h3, hne, if_false]
    simp
    refine ⟨by omega, by omega⟩
  | case4 a b c rest ih =>
    intro h
    have ha : a < 256 := h a (by simp)
    have hb : b < 256 := h b (by simp)
    have hc : c < 256 := h c (by simp)
    have hrest : ∀ x ∈ rest, x < 256 := fun x hx => h x (by simp [hx])
    have h1 := b64Inv_b64Char (a / 4) (by omega)
    have h2 := b64Inv_b64Char (a % 4 * 16 + b / 16) (by omega)
    have h3 := b64Inv_b64Char (b % 16 * 4 + c / 64) (by omega)
    have h4 := b64Inv_b64Char (c % 64) (by omega)
    have hne3 := b64Char_ne_pad (b % 16 * 4 + c / 64) (by omega)
    have hne4 := b64Char_ne_pad (c % 64) (by omega)
    simp only [b64Encode, b64Decode, h1, h2, h3, h4, hne3, hne4, if_false, ih hrest]
    simp only [Option.some.injEq, List.cons.injEq]
    refine ⟨by omega, by omega, by omega, trivial⟩

end Sqld

namespace Sqld

lemma digit_toNat_bounds (c : Char) (h : c.isDigit = true) :
    48 ≤ c.toNat ∧ c.toNat ≤ 57 := by
  simp only [Char.isDigit, Bool.and_eq_true, decide_eq_true_eq] at h
  obtain ⟨h1, h2⟩ := h
  exact ⟨h1, h2⟩

lemma char_valid_ranges (c : Char) :
    c.toNat < 0xD800 ∨ (0xDFFF < c.toNat ∧ c.toNat < 0x110000) := c.valid

lemma utf8EncodeChar_lt256 (c : Char) : ∀ x ∈ utf8EncodeChar c, x < 256 := by
  have h := char_valid_ranges c
  intro x hx
  rw [utf8EncodeChar] at hx
  by_cases h1 : c.toNat < 0x80
  · simp [h1] at hx
    omega
  · by_cases h2 : c.toNat < 0x800
    · simp [h1, h2] at hx
      omega
    · by_cases h3 : c.toNat < 0x10000
      · simp [h1, h2, h3] at hx
        omega
      · simp [h1, h2, h3] at hx
        omega

lemma hexByte_lt256 (k : Nat) (h : k < 16) : hexByte k < 256 := by
  rw [hexByte]
  split <;> omega

lemma escU_lt256 (n : Nat) : ∀ x ∈ escU n, x < 256 := by
  intro x hx
  simp only [escU, List.mem_cons, List.not_mem_nil, or_false] at hx
  rcases hx with rfl | rfl | rfl | rfl | rfl | rfl
  · omega
  · omega
  · exact hexByte_lt256 _ (by omega)
  · exact hexByte_lt256 _ (by omega)
  · exact hexByte_lt256 _ (by omega)
  · exact hexByte_lt256 _ (by omega)

lemma escapeChar_lt256 (c : Char) : ∀ x ∈ escapeChar c, x < 256 := by
  intro x hx
  rw [escapeChar] at hx
  repeat' split at hx
  all_goals first
    | (simp at hx; omega)
    | exact escU_lt256 _ x hx
    | exact utf8EncodeChar_lt256 c x hx

lemma escBytes_lt256 (s : GoStr) : ∀ x ∈ escBytes s, x < 256 := by
  intro x hx
  simp only [escBytes, List.mem_flatten, List.mem_map] at hx
  obtain ⟨l, ⟨c, _, rfl⟩, hxl⟩ := hx
  exact escapeChar_lt256 c x hxl

lemma jsonBytes_lt256 (v : GoVal) (hok : cursorValOk v = true) :
    ∀ x ∈ jsonBytes v, x < 256 := by
  intro x hx
  cases v with
  | vnull =>
    have he : jsonBytes .vnull = [110, 117, 108, 108] := by decide
    rw [he] at hx
    simp at hx
    omega
  | vbool b =>
    cases b with
    | true =>
      have he : jsonBytes (.vbool true) = [116, 114, 117, 101] := by decide
      rw [he] at hx
      simp at hx
      omega
    | false =>
      have he : jsonBytes (.vbool false) = [102, 97, 108, 115, 101] := by decide
      rw [he] at hx
      simp at hx
      omega
  | vint n =>
    simp only [jsonBytes, List.mem_map] at hx
    obtain ⟨ch, hch, rfl⟩ := hx
    cases n with
    | ofNat m =>
      have hd := natToChars_digits m ch (by simpa [itoa] using hch)
      have := digit_toNat_bounds ch hd
      omega
    | negSucc m =>
      simp only [itoa, List.mem_cons] at hch
      rcases hch with rfl | hch
      · decide
      · have hd := natToChars_digits (m + 1) ch hch
        have := digit_toNat_bounds ch hd
        omega
  | vstr s =>
    simp only [jsonBytes, List.mem_cons, List.mem_append, List.mem_singleton] at hx
    rcases hx with (rfl | hx) | hx
    · omega
    · exact escBytes_lt256 s x hx
    · simp at hx
      omega
  | vstrList l => exact absurd hok (by simp [cursorValOk])
  | vdate y m d => exact absurd hok (by simp [cursorValOk])
  | vfloatLit s => exact absurd hok (by simp [cursorValOk])

lemma marshal_lt256 (ts idv : GoVal) (hts : cursorValOk ts = true)
    (hid : cursorValOk idv = true) :
    ∀ x ∈ jsonMarshalCursorData ts idv, x < 256 := by
  have hts9 : (gs ("timestamp")).map Char.toNat =
      [116, 105, 109, 101, 115, 116, 97, 109, 112] := by decide
  have hid2 : (gs ("id")).map Char.toNat = [105, 100] := by decide
  intro x hx
  rw [jsonMarshalCursorData, hts9, hid2] at hx
  rcases List.mem_cons.mp hx with rfl | hx
  · omega
  · simp only [List.mem_append, List.mem_cons, List.not_mem_nil, or_false] at hx
    rcases hx with ((((((((hx | hx) | hx) | hx) | hx) | hx) | hx) | hx) | hx)
    · omega
    · omega
    · omega
    · exact jsonBytes_lt256 ts hts x hx
    · omega
    · omega
    · omega
    · exact jsonBytes_lt256 idv hid x hx
    · omega

end Sqld

namespace Sqld

/-- UTF-8 decoding undoes the encoder on any rune, leaving later bytes. -/
lemma utf8_round (c : Char) (rest : List Nat) :
    ∃ b0 t, utf8EncodeChar c = b0 :: t ∧ (b0 = c.toNat ∨ 0xC2 ≤ b0) ∧
      utf8DecodeChar b0 (t ++ rest) = (c, rest) := by
  have h := char_valid_ranges c
  by_cases h1 : c.toNat < 0x80
  · refine ⟨c.toNat, [], ?_, Or.inl rfl, ?_⟩
    · rw [utf8EncodeChar]
      simp [h1]
    · simp only [List.nil_append, utf8DecodeChar, h1, if_true, Char.ofNat_toNat]
  · by_cases h2 : c.toNat < 0x800
    · refine ⟨0xC0 + c.toNat / 64, [0x80 + c.toNat % 64], ?_, Or.inr (by omega), ?_⟩
      · rw [utf8EncodeChar]
        simp [h1, h2]
      · have e1 : ¬(0xC0 + c.toNat / 64 < 0x80) := by omega
        have e2 : ¬(0xC0 + c.toNat / 64 < 0xC2) := by omega
        have e3 : 0xC0 + c.toNat / 64 < 0xE0 := by omega
        have e4 : 0x80 ≤ 0x80 + c.toNat % 64 ∧ 0x80 + c.toNat % 64 < 0xC0 := by omega
        have e5 : (0xC0 + c.toNat / 64 - 0xC0) * 64 + (0x80 + c.toNat % 64 - 0x80) =
            c.toNat := by omega
        simp only [utf8DecodeChar, List.cons_append, List.nil_append, e1, e2, e3, e4, e5,
          if_false, if_true, Char.ofNat_toNat]
        simp
    · by_cases h3 : c.toNat < 0x10000
      · refine ⟨0xE0 + c.toNat / 4096,
          [0x80 + c.toNat / 64 % 64, 0x80 + c.toNat % 64], ?_, Or.inr (by omega), ?_⟩
        · rw [utf8EncodeChar]
          simp [h1, h2, h3]
        · have e1 : ¬(0xE0 + c.toNat / 4096 < 0x80) := by omega
          have e2 : ¬(0xE0 + c.toNat / 4096 < 0xC2) := by omega
          have e3 : ¬(0xE0 + c.toNat / 4096 < 0xE0) := by omega
          have e4 : 0xE0 + c.toNat / 4096 < 0xF0 := by omega
          have e5 : (0x80 ≤ 0x80 + c.toNat / 64 % 64 ∧ 0x80 + c.toNat / 64 % 64 < 0xC0) ∧
              (0x80 ≤ 0x80 + c.toNat % 64 ∧ 0x80 + c.toNat % 64 < 0xC0) := by omega
          have e6 : ¬((0xE0 + c.toNat / 4096 - 0xE0) * 4096 +
              (0x80 + c.toNat / 64 % 64 - 0x80) * 64 + (0x80 + c.toNat % 64 - 0x80) < 0x800 ∨
              (0xD800 ≤ (0xE0 + c.toNat / 4096 - 0xE0) * 4096 +
                (0x80 + c.toNat / 64 % 64 - 0x80) * 64 + (0x80 + c.toNat % 64 - 0x80) ∧
               (0xE0 + c.toNat / 4096 - 0xE0) * 4096 +
                (0x80 + c.toNat / 64 % 64 - 0x80) * 64 + (0x80 + c.toNat % 64 - 0x80) <
                 0xE000)) := by omega
          have e7 : (0xE0 + c.toNat / 4096 - 0xE0) * 4096 +
              (0x80 + c.toNat / 64 % 64 - 0x80) * 64 + (0x80 + c.toNat % 64 - 0x80) =
              c.toNat := by omega
          have e9 : ¬(c.toNat < 0x800 ∨ (0xD800 ≤ c.toNat ∧ c.toNat < 0xE000)) := by omega
          simp only [utf8DecodeChar, List.cons_append, List.nil_append, e1, e2, e3, e4, e5,
            e6, e7, if_false, if_true, Char.ofNat_toNat]
          simp [e9]
      · refine ⟨0xF0 + c.toNat / 262144,
          [0x80 + c.toNat / 4096 % 64, 0x80 + c.toNat / 64 % 64, 0x80 + c.toNat % 64], ?_,
          Or.inr (by omega), ?_⟩
        · rw [utf8EncodeChar]
          simp [h1, h2, h3]
        · have hlt : c.toNat < 0x110000 := by omega
          have e1 : ¬(0xF0 + c.toNat / 262144 < 0x80) := by omega
          have e2 : ¬(0xF0 + c.toNat / 262144 < 0xC2) := by omega
          have e3 : ¬(0xF0 + c.toNat / 262144 < 0xE0) := by omega
          have e4 : ¬(0xF0 + c.toNat / 262144 < 0xF0) := by omega
          have e5 : 0xF0 + c.toNat / 262144 < 0xF5 := by omega
          have e6 : (0x80 ≤ 0x80 + c.toNat / 4096 % 64 ∧ 0x80 + c.toNat / 4096 % 64 < 0xC0) ∧
              (0x80 ≤ 0x80 + c.toNat / 64 % 64 ∧ 0x80 + c.toNat / 64 % 64 < 0xC0) ∧
              (0x80 ≤ 0x80 + c.toNat % 64 ∧ 0x80 + c.toNat % 64 < 0xC0) := by omega
          have e7 : ¬((0xF0 + c.toNat / 262144 - 0xF0) * 262144 +
              (0x80 + c.toNat / 4096 % 64 - 0x80) * 4096 +
              (0x80 + c.toNat / 64 % 64 - 0x80) * 64 + (0x80 + c.toNat % 64 - 0x80) <
                0x10000 ∨
              0x10FFFF < (0xF0 + c.toNat / 262144 - 0xF0) * 262144 +
                (0x80 + c.toNat / 4096 % 64 - 0x80) * 4096 +
                (0x80 + c.toNat / 64 % 64 - 0x80) * 64 + (0x80 + c.toNat % 64 - 0x80)) := by
            omega
          have e8 : (0xF0 + c.toNat / 262144 - 0xF0) * 262144 +
              (0x80 + c.toNat / 4096 % 64 - 0x80) * 4096 +
              (0x80 + c.toNat / 64 % 64 - 0x80) * 64 + (0x80 + c.toNat % 64 - 0x80) =
              c.toNat := by omega
          have e9 : ¬(c.toNat < 0x10000 ∨ 0x10FFFF < c.toNat) := by omega
          simp only [utf8DecodeChar, List.cons_append, List.nil_append, e1, e2, e3, e4, e5,
            e6, e7, e8, if_false, if_true, Char.ofNat_toNat]
          simp [e9]

end Sqld

namespace Sqld

lemma hexVal_hexByte : ∀ k, k < 16 → hexVal (hexByte k) = some k := by decide

/-- The parser resolves a `\uXXXX` escape written by `escU` back to its
code point (no surrogate involved). -/
lemma parse_escU (n : Nat) (hn : n < 0x10000) (hns : ¬(0xD800 ≤ n ∧ n < 0xE000))
    (X : List Nat) (f : Nat) :
    parseStringF (f + 1) (escU n ++ X) = consChar n (parseStringF f X) := by
  have hv1 := hexVal_hexByte (n / 4096 % 16) (by omega)
  have hv2 := hexVal_hexByte (n / 256 % 16) (by omega)
  have hv3 := hexVal_hexByte (n / 16 % 16) (by omega)
  have hv4 := hexVal_hexByte (n % 16) (by omega)
  have ecp : n / 4096 % 16 * 4096 + n / 256 % 16 * 256 + n / 16 % 16 * 16 + n % 16 = n := by
    omega
  have ehi : ¬(0xD800 ≤ n ∧ n < 0xDC00) := by omega
  have elo : ¬(0xDC00 ≤ n ∧ n < 0xE000) := by omega
  simp only [escU, List.cons_append, parseStringF, hv1, hv2, hv3, hv4, ecp, ehi, elo,
    if_false, if_true]
  simp

end Sqld

namespace Sqld

/-- Parsing a string body inverts the escaper: the escaped bytes followed
by the closing quote parse back to the original runes. -/
lemma parse_escBytes : ∀ (s : GoStr) (rest : List Nat) (fuel : Nat), s.length < fuel →
    parseStringF fuel (escBytes s ++ (0x22 :: rest)) = some (s, rest) := by
  intro s
  induction s with
  | nil =>
    intro rest fuel hf
    obtain ⟨f, rfl⟩ : ∃ f, fuel = f + 1 := ⟨fuel - 1, by omega⟩
    simp [escBytes, parseStringF]
  | cons c cs ih =>
    intro rest fuel hf
    obtain ⟨f, rfl⟩ : ∃ f, fuel = f + 1 := ⟨fuel - 1, by omega⟩
    have hfs : cs.length < f := by
      simp only [List.length_cons] at hf
      omega
    have hesc : escBytes (c :: cs) ++ (0x22 :: rest) =
        escapeChar c ++ (escBytes cs ++ (0x22 :: rest)) := by
      simp [escBytes, List.append_assoc]
    rw [hesc, escapeChar]
    by_cases b1 : c.toNat = 0x22
    · have hch : Char.ofNat 0x22 = c := by rw [← b1, Char.ofNat_toNat]
      rw [if_pos b1]
      simp only [List.cons_append, List.nil_append]
      simp [parseStringF, consChar, ih rest f hfs]
      exact hch
    · by_cases b2 : c.toNat = 0x5C
      · have hch : Char.ofNat 0x5C = c := by rw [← b2, Char.ofNat_toNat]
        rw [if_neg b1, if_pos b2]
        simp only [List.cons_append, List.nil_append]
        simp [parseStringF, consChar, ih rest f hfs]
        exact hch
      · by_cases b3 : c.toNat = 0x0A
        · have hch : Char.ofNat 10 = c := by rw [← b3, Char.ofNat_toNat]
          rw [if_neg b1, if_neg b2, if_pos b3]
          simp only [List.cons_append, List.nil_append]
          simp [parseStringF, consChar, ih rest f hfs]
          exact hch
        · by_cases b4 : c.toNat = 0x0D
          · have hch : Char.ofNat 13 = c := by rw [← b4, Char.ofNat_toNat]
            rw [if_neg b1, if_neg b2, if_neg b3, if_pos b4]
            simp only [List.cons_append, List.nil_append]
            simp [parseStringF, consChar, ih rest f hfs]
            exact hch
          · by_cases b5 : c.toNat = 0x09
            · have hch : Char.ofNat 9 = c := by rw [← b5, Char.ofNat_toNat]
              rw [if_neg b1, if_neg b2, if_neg b3, if_neg b4, if_pos b5]
              simp only [List.cons_append, List.nil_append]
              simp [parseStringF, consChar, ih rest f hfs]
              exact hch
            · by_cases b6 : c.toNat < 0x20
              · rw [if_neg b1, if_neg b2, if_neg b3, if_neg b4, if_neg b5, if_pos b6]
                rw [parse_escU c.toNat (by omega) (by omega), ih rest f hfs]
                simp [consChar, Char.ofNat_toNat]
              · by_cases b7 : c.toNat = 0x3C ∨ c.toNat = 0x3E ∨ c.toNat = 0x26
                · rw [if_neg b1, if_neg b2, if_neg b3, if_neg b4, if_neg b5, if_neg b6,
                    if_pos b7]
                  rw [parse_escU c.toNat (by omega) (by omega), ih rest f hfs]
                  simp [consChar, Char.ofNat_toNat]
                · by_cases b8 : c.toNat = 0x2028 ∨ c.toNat = 0x2029
                  · rw [if_neg b1, if_neg b2, if_neg b3, if_neg b4, if_neg b5, if_neg b6,
                      if_neg b7, if_pos b8]
                    rw [parse_escU c.toNat (by omega) (by omega), ih rest f hfs]
                    simp [consChar, Char.ofNat_toNat]
                  · rw [if_neg b1, if_neg b2, if_neg b3, if_neg b4, if_neg b5, if_neg b6,
                      if_neg b7, if_neg b8]
                    obtain ⟨b0, t, henc, hb0, hdec⟩ :=
                      utf8_round c (escBytes cs ++ (0x22 :: rest))
                    rw [henc]
                    have hb022 : ¬(b0 = 0x22) := by rcases hb0 with rfl | h <;> omega
                    have hb05C : ¬(b0 = 0x5C) := by rcases hb0 with rfl | h <;> omega
                    simp only [List.cons_append, parseStringF, hb022, hb05C, if_false, hdec]
                    simp [consChar, ih rest f hfs, Char.ofNat_toNat]

end Sqld

namespace Sqld

lemma takeDigits_digits : ∀ (ds : List Nat), (∀ b ∈ ds, 48 ≤ b ∧ b ≤ 57) →
    ∀ (rest : List Nat), (∀ b, rest.head? = some b → ¬(48 ≤ b ∧ b ≤ 57)) →
    takeDigits (ds ++ rest) = (ds, rest) := by
  intro ds
  induction ds with
  | nil =>
    intro _ rest hrest
    cases rest with
    | nil => rfl
    | cons b r =>
      have hb := hrest b rfl
      simp [takeDigits, hb]
  | cons d ds' ih =>
    intro hds rest hrest
    have hd := hds d (by simp)
    have hds' : ∀ b ∈ ds', 48 ≤ b ∧ b ≤ 57 := fun b hb => hds b (by simp [hb])
    simp [takeDigits, hd, ih hds' rest hrest]

lemma digitsToNat_map (s : GoStr) : digitsToNat (s.map Char.toNat) = digitsVal s := by
  rw [digitsToNat, digitsVal, List.foldl_map]
  congr 1
  funext a c
  simp only [digitVal]
  omega

lemma parse_itoa (n : Int) (rest : List Nat)
    (h1 : ∀ b, rest.head? = some b → ¬(48 ≤ b ∧ b ≤ 57))
    (h2 : numCont rest = false) :
    parseNumber ((itoa n).map Char.toNat ++ rest) = some (n, rest) := by
  cases n with
  | ofNat m =>
    obtain ⟨d, ds, hds⟩ : ∃ d ds, natToChars m = d :: ds := by
      cases hnc : natToChars m with
      | nil => exact absurd hnc (natToChars_ne_nil m)
      | cons d ds => exact ⟨d, ds, rfl⟩
    have hdigs : ∀ b ∈ (natToChars m).map Char.toNat, 48 ≤ b ∧ b ≤ 57 := by
      intro b hb
      simp only [List.mem_map] at hb
      obtain ⟨ch, hch, rfl⟩ := hb
      exact digit_toNat_bounds ch (natToChars_digits m ch hch)
    have htake := takeDigits_digits ((natToChars m).map Char.toNat) hdigs rest h1
    have hd48 : 48 ≤ d.toNat ∧ d.toNat ≤ 57 := by
      apply hdigs
      rw [hds]
      simp
    have hit : itoa (Int.ofNat m) = natToChars m := rfl
    rw [hit, hds]
    simp only [List.map_cons, List.cons_append, parseNumber]
    rw [if_neg (by omega : ¬(d.toNat = 0x2D))]
    rw [show d.toNat :: (List.map Char.toNat ds ++ rest) =
        (natToChars m).map Char.toNat ++ rest from by rw [hds]; simp]
    rw [htake]
    simp only [List.map_eq_nil_iff]
    rw [if_neg (by rw [hds]; simp : ¬(natToChars m = [])),
      if_neg (by rw [h2]; simp : ¬(numCont rest = true))]
    rw [digitsToNat_map, digitsVal_natToChars]
    rfl
  | negSucc m =>
    obtain ⟨d, ds, hds⟩ : ∃ d ds, natToChars (m + 1) = d :: ds := by
      cases hnc : natToChars (m + 1) with
      | nil => exact absurd hnc (natToChars_ne_nil (m + 1))
      | cons d ds => exact ⟨d, ds, rfl⟩
    have hdigs : ∀ b ∈ (natToChars (m + 1)).map Char.toNat, 48 ≤ b ∧ b ≤ 57 := by
      intro b hb
      simp only [List.mem_map] at hb
      obtain ⟨ch, hch, rfl⟩ := hb
      exact digit_toNat_bounds ch (natToChars_digits (m + 1) ch hch)
    have htake := takeDigits_digits ((natToChars (m + 1)).map Char.toNat) hdigs rest h1
    have hit : itoa (Int.negSucc m) = '-' :: natToChars (m + 1) := rfl
    rw [hit]
    simp only [List.map_cons, List.cons_append, parseNumber]
    rw [if_pos (by rfl : ('-').toNat = 0x2D), htake]
    rw [if_neg (by rw [hds]; simp : ¬((natToChars (m + 1)).map Char.toNat = [])),
      if_neg (by rw [h2]; simp : ¬(numCont rest = true))]
    rw [digitsToNat_map, digitsVal_natToChars]
    have hns : -(((m + 1 : Nat) : Int)) = Int.negSucc m := by
      rw [Int.negSucc_eq]
      push_cast
      ring
    rw [hns]

/-- Fuel a value parse needs (one step, plus the rune count of a string). -/
def jsonNeed : GoVal → Nat
  | .vstr s => s.length + 2
  | _ => 1

end Sqld

namespace Sqld

/-- The value parser inverts `jsonBytes` on the covered values, leaving a
non-number boundary untouched. -/
lemma parse_value_jsonBytes (v : GoVal) (rest : List Nat) (fuel : Nat)
    (hok : cursorValOk v = true) (hfuel : jsonNeed v ≤ fuel)
    (h1 : ∀ b, rest.head? = some b → ¬(48 ≤ b ∧ b ≤ 57))
    (h2 : numCont rest = false) :
    parseValueF fuel (jsonBytes v ++ rest) = some (jrepr v, rest) := by
  have hf1 : 1 ≤ fuel := le_trans (by cases v <;> simp [jsonNeed]) hfuel
  obtain ⟨f, rfl⟩ : ∃ f, fuel = f + 1 := ⟨fuel - 1, by omega⟩
  cases v with
  | vnull =>
    have he : jsonBytes .vnull = [110, 117, 108, 108] := by decide
    rw [he]
    simp [parseValueF, skipWs, jrepr]
  | vbool b =>
    cases b with
    | true =>
      have he : jsonBytes (.vbool true) = [116, 114, 117, 101] := by decide
      rw [he]
      simp [parseValueF, skipWs, jrepr]
    | false =>
      have he : jsonBytes (.vbool false) = [102, 97, 108, 115, 101] := by decide
      rw [he]
      simp [parseValueF, skipWs, jrepr]
  | vint n =>
    have hpn := parse_itoa n rest h1 h2
    obtain ⟨b0, bs', hsh, hb0⟩ : ∃ b0 bs', (itoa n).map Char.toNat = b0 :: bs' ∧
        (b0 = 45 ∨ (48 ≤ b0 ∧ b0 ≤ 57)) := by
      cases n with
      | ofNat m =>
        obtain ⟨d, ds, hds⟩ : ∃ d ds, natToChars m = d :: ds := by
          cases hnc : natToChars m with
          | nil => exact absurd hnc (natToChars_ne_nil m)
          | cons d ds => exact ⟨d, ds, rfl⟩
        refine ⟨d.toNat, ds.map Char.toNat, ?_, Or.inr ?_⟩
        · rw [show itoa (Int.ofNat m) = natToChars m from rfl, hds]
          simp
        · exact digit_toNat_bounds d (natToChars_digits m d (by rw [hds]; simp))
      | negSucc m =>
        refine ⟨45, (natToChars (m + 1)).map Char.toNat, ?_, Or.inl rfl⟩
        rw [show itoa (Int.negSucc m) = '-' :: natToChars (m + 1) from rfl]
        simp
    have hjb : jsonBytes (.vint n) = (itoa n).map Char.toNat := rfl
    rw [hjb, hsh]
    simp only [List.cons_append, parseValueF]
    have hws : ¬(b0 = 0x20 ∨ b0 = 0x09 ∨ b0 = 0x0A ∨ b0 = 0x0D) := by omega
    simp only [skipWs, hws, if_false]
    rw [if_neg (by omega : ¬(b0 = 0x22)), if_neg (by omega : ¬(b0 = 0x6E)),
      if_neg (by omega : ¬(b0 = 0x74)), if_neg (by omega : ¬(b0 = 0x66)),
      if_neg (by omega : ¬(b0 = 0x5B)), if_neg (by omega : ¬(b0 = 0x7B))]
    rw [show b0 :: (bs' ++ rest) = (itoa n).map Char.toNat ++ rest from by rw [hsh]; simp]
    rw [hpn]
    rfl
  | vstr s =>
    have hfs : s.length < f := by
      simp only [jsonNeed] at hfuel
      omega
    have hsh : jsonBytes (.vstr s) ++ rest = 0x22 :: (escBytes s ++ (0x22 :: rest)) := by
      simp [jsonBytes, List.append_assoc]
    rw [hsh]
    simp only [parseValueF]
    simp [skipWs, parse_escBytes s rest f hfs, jrepr]
  | vstrList l => exact absurd hok (by simp [cursorValOk])
  | vdate y m d => exact absurd hok (by simp [cursorValOk])
  | vfloatLit s => exact absurd hok (by simp [cursorValOk])

end Sqld

namespace Sqld

lemma skipWs_cons (b : Nat) (t : List Nat)
    (h : ¬(b = 0x20 ∨ b = 0x09 ∨ b = 0x0A ∨ b = 0x0D)) : skipWs (b :: t) = b :: t := by
  simp [skipWs, h]

lemma jsonNeed_pos (v : GoVal) : 1 ≤ jsonNeed v := by
  cases v <;> simp [jsonNeed]

/-- Parsing the second (`"id"`) member of the marshaled object. -/
lemma parse_cursor_member2 (idv : GoVal) (hid : cursorValOk idv = true) :
    ∀ f2 : Nat, 2 < f2 → jsonNeed idv ≤ f2 →
    parseMembersF (f2 + 1) (0x22 :: ((gs ("id")).map Char.toNat ++
      (0x22 :: 0x3A :: (jsonBytes idv ++ [0x7D])))) =
      some ([(gs ("id"), jrepr idv)], []) := by
  intro f2 hf2 hneed
  simp only [parseMembersF]
  rw [skipWs_cons _ _ (by omega)]
  dsimp only
  rw [show (gs ("id")).map Char.toNat = escBytes (gs ("id")) from by decide]
  rw [parse_escBytes (gs ("id")) _ f2 (by
    have h2 : (gs ("id")).length = 2 := by decide
    omega)]
  dsimp only
  rw [skipWs_cons _ _ (by omega)]
  dsimp only
  rw [parse_value_jsonBytes idv [0x7D] f2 hid hneed
    (by intro b hb; simp at hb; omega) (by simp [numCont])]
  dsimp only
  rw [skipWs_cons _ _ (by omega)]

end Sqld

namespace Sqld

/-- Parsing both members of the marshaled cursor object. -/
lemma parse_cursor_members (ts idv : GoVal) (hts : cursorValOk ts = true)
    (hid : cursorValOk idv = true) :
    ∀ f2 : Nat, 9 < f2 + 1 → jsonNeed ts ≤ f2 + 1 → 2 < f2 → jsonNeed idv ≤ f2 →
    parseMembersF (f2 + 1 + 1) (0x22 :: ((gs ("timestamp")).map Char.toNat ++
      (0x22 :: 0x3A :: (jsonBytes ts ++
        (0x2C :: 0x22 :: ((gs ("id")).map Char.toNat ++
          (0x22 :: 0x3A :: (jsonBytes idv ++ [0x7D])))))))) =
      some ([(gs ("timestamp"), jrepr ts), (gs ("id"), jrepr idv)], []) := by
  intro f2 h9 hnts h2 hnid
  rw [parseMembersF]
  rw [skipWs_cons _ _ (by omega)]
  dsimp only
  rw [show (gs ("timestamp")).map Char.toNat = escBytes (gs ("timestamp")) from by decide]
  rw [parse_escBytes (gs ("timestamp")) _ (f2 + 1) (by
    have h9' : (gs ("timestamp")).length = 9 := by decide
    omega)]
  dsimp only
  rw [skipWs_cons _ _ (by omega)]
  dsimp only
  rw [parse_value_jsonBytes ts
    (0x2C :: 0x22 :: ((gs ("id")).map Char.toNat ++
      (0x22 :: 0x3A :: (jsonBytes idv ++ [0x7D])))) (f2 + 1) hts hnts
    (by intro b hb; simp at hb; omega) (by simp [numCont])]
  dsimp only
  rw [skipWs_cons _ _ (by omega)]
  dsimp only
  rw [parse_cursor_member2 idv hid f2 h2 hnid]

end Sqld

namespace Sqld

/-- Parsing the whole marshaled cursor object. -/
lemma parse_cursor_obj (ts idv : GoVal) (hts : cursorValOk ts = true)
    (hid : cursorValOk idv = true) :
    ∀ fuel : Nat, jsonNeed ts + jsonNeed idv + 14 ≤ fuel →
    parseValueF fuel (jsonMarshalCursorData ts idv) =
      some (.jobj [(gs ("timestamp"), jrepr ts), (gs ("id"), jrepr idv)], []) := by
  intro fuel hfuel
  have hn1 := jsonNeed_pos ts
  have hn2 := jsonNeed_pos idv
  obtain ⟨f2, rfl⟩ : ∃ f2, fuel = f2 + 1 + 1 + 1 := ⟨fuel - 3, by omega⟩
  have hdata : jsonMarshalCursorData ts idv =
      0x7B :: 0x22 :: ((gs ("timestamp")).map Char.toNat ++
        (0x22 :: 0x3A :: (jsonBytes ts ++
          (0x2C :: 0x22 :: ((gs ("id")).map Char.toNat ++
            (0x22 :: 0x3A :: (jsonBytes idv ++ [0x7D]))))))) := by
    simp [jsonMarshalCursorData]
  rw [hdata, parseValueF]
  rw [skipWs_cons _ _ (by omega)]
  dsimp only
  rw [if_neg (by omega : ¬((0x7B : Nat) = 0x22)), if_neg (by omega : ¬((0x7B : Nat) = 0x6E)),
    if_neg (by omega : ¬((0x7B : Nat) = 0x74)), if_neg (by omega : ¬((0x7B : Nat) = 0x66)),
    if_neg (by omega : ¬((0x7B : Nat) = 0x5B)), if_pos (rfl : (0x7B : Nat) = 0x7B)]
  rw [skipWs_cons _ _ (by omega)]
  dsimp only
  rw [parse_cursor_members ts idv hts hid f2 (by omega) (by omega) (by omega) (by omega)]

lemma utf8EncodeChar_len_pos (c : Char) : 1 ≤ (utf8EncodeChar c).length := by
  rw [utf8EncodeChar]
  repeat' split
  all_goals simp

lemma escapeChar_len_pos (c : Char) : 1 ≤ (escapeChar c).length := by
  rw [escapeChar]
  repeat' split
  all_goals first
    | simp [escU]
    | exact utf8EncodeChar_len_pos c

lemma escBytes_len (s : GoStr) : s.length ≤ (escBytes s).length := by
  induction s with
  | nil => simp [escBytes]
  | cons c cs ih =>
    have h1 := escapeChar_len_pos c
    simp only [escBytes, List.map_cons, List.flatten_cons, List.length_append,
      List.length_cons]
    simp only [escBytes] at ih
    omega

lemma jsonNeed_le (v : GoVal) (hok : cursorValOk v = true) :
    jsonNeed v ≤ (jsonBytes v).length + 1 := by
  cases v with
  | vstr s =>
    have := escBytes_len s
    simp only [jsonNeed, jsonBytes, List.length_cons, List.length_append,
      List.length_singleton]
    omega
  | vnull => simp [jsonNeed]
  | vbool b => simp [jsonNeed]
  | vint n => simp [jsonNeed]
  | vstrList l => simp [jsonNeed]
  | vdate y m d => simp [jsonNeed]
  | vfloatLit s => simp [jsonNeed]

lemma findField_two_fst (k1 k2 key : GoStr) (v1 v2 : JVal) (h1 : k1 = key) (h2 : k2 ≠ key) :
    findField [(k1, v1), (k2, v2)] key = v1 := by
  simp [findField, h1, h2]

lemma findField_two_snd (k1 k2 key : GoStr) (v1 v2 : JVal) (h2 : k2 = key) :
    findField [(k1, v1), (k2, v2)] key = v2 := by
  simp [findField, h2]

/-- Unmarshaling inverts marshaling of the cursor pair. -/
lemma unmarshal_marshal (ts idv : GoVal) (hts : cursorValOk ts = true)
    (hid : cursorValOk idv = true) :
    unmarshalCursorData (jsonMarshalCursorData ts idv) = some (jrepr ts, jrepr idv) := by
  have l9 : ((gs ("timestamp")).map Char.toNat).length = 9 := by decide
  have l2 : ((gs ("id")).map Char.toNat).length = 2 := by decide
  have hml : 20 + (jsonBytes ts).length + (jsonBytes idv).length =
      (jsonMarshalCursorData ts idv).length := by
    simp [jsonMarshalCursorData, l9, l2]
    omega
  have hlen : jsonNeed ts + jsonNeed idv + 14 ≤ (jsonMarshalCursorData ts idv).length + 1 := by
    have h1 := jsonNeed_le ts hts
    have h2 := jsonNeed_le idv hid
    omega
  rw [unmarshalCursorData, parse_cursor_obj ts idv hts hid _ hlen]
  dsimp only
  rw [if_pos (by simp [skipWs] : skipWs ([] : List Nat) = [])]
  rw [findField_two_fst _ _ _ _ _ rfl (by decide), findField_two_snd _ _ _ _ _ rfl]

/-- Encoding a nonempty byte list yields a nonempty string. -/
lemma b64Encode_ne_nil (a : Nat) (rest : List Nat) : b64Encode (a :: rest) ≠ [] := by
  match rest with
  | [] => simp [b64Encode]
  | [b] => simp [b64Encode]
  | b :: c :: r => simp [b64Encode]

end Sqld

namespace Sqld

/-- C9: for every covered ordering value (null, boolean, float64-exact
integer, or string) and every id in the `int32` range, decoding the
encoded cursor succeeds with no error and returns a cursor whose id
equals the original id and whose ordering value is the JSON
representation of the original (strings and booleans verbatim, integers
as their float64-exact numeric value). -/
theorem C9_cursor_roundtrip (v : GoVal) (idn : Int)
    (hok : cursorValOk v = true) (hid : -(2 ^ 31) ≤ idn ∧ idn < 2 ^ 31) :
    DecodeCursor (EncodeCursor v (.vint idn)) = .ok (some ⟨jrepr v, idn⟩) := by
  have hvint : cursorValOk (.vint idn) = true := by
    simp only [cursorValOk, decide_eq_true_eq]
    omega
  have hdt : jsonMarshalCursorData v (.vint idn) =
      0x7B :: ([0x22] ++ (gs ("timestamp")).map Char.toNat ++ [0x22, 0x3A] ++ jsonBytes v
        ++ [0x2C, 0x22] ++ (gs ("id")).map Char.toNat ++ [0x22, 0x3A]
        ++ jsonBytes (.vint idn) ++ [0x7D]) := rfl
  have hne : EncodeCursor v (.vint idn) ≠ [] := by
    rw [EncodeCursor, hdt]
    exact b64Encode_ne_nil _ _
  rw [DecodeCursor, if_neg hne, EncodeCursor,
    b64_roundtrip _ (marshal_lt256 v (.vint idn) hok hvint)]
  dsimp only
  rw [unmarshal_marshal v (.vint idn) hok hvint]
  dsimp only [jrepr]
  rw [int32ofFloat, if_pos hid]

/-- Witness for C9 at a concrete string ordering value and id. -/
theorem C9_cursor_roundtrip_witness :
    cursorValOk (.vstr (gs ("2024-01-02T03:04:05Z"))) = true ∧
    (-(2 ^ 31) ≤ (98765 : Int) ∧ (98765 : Int) < 2 ^ 31) ∧
    DecodeCursor (EncodeCursor (.vstr (gs ("2024-01-02T03:04:05Z"))) (.vint 98765)) =
      .ok (some ⟨.jstr (gs ("2024-01-02T03:04:05Z")), 98765⟩) :=
  ⟨by decide, by decide,
    C9_cursor_roundtrip (.vstr (gs ("2024-01-02T03:04:05Z"))) 98765 (by decide) (by decide)⟩

end Sqld
